import Mathlib

/-!
Verification of the TUFLOW validator's path-resolution and version-staleness
analysis engine, shallowly embedded from the TypeScript sources
(`src/diagnostics.ts`, `src/versioning.ts`, `src/pathParsing.ts`,
`src/constants.ts`).

Strings are modelled as `List Char` (the analyzer only manipulates text with
UTF-16 index arithmetic on ASCII content, where JavaScript string indices and
list positions coincide).  The Node `fs`/`path` libraries and the editor
configuration store are external collaborators: the file system and the two
feature flags are fields of an explicit `Env` record, while the `path`
functions are modelled concretely for POSIX-style forward-slash paths (the
analyzer normalizes backslashes to forward slashes before resolving).
-/

/-- Strings as lists of characters. -/
abbrev Str := List Char

/-- Convert a Lean string literal to the character-list representation. -/
def chars (s : String) : Str := s.toList

/-- JavaScript whitespace class `\s`, restricted to its ASCII members
(space, tab, newline, carriage return, vertical tab, form feed). -/
def isSpaceChar (c : Char) : Bool :=
  c = ' ' ∨ c = '\t' ∨ c = '\n' ∨ c = '\r' ∨ c = Char.ofNat 11 ∨ c = Char.ofNat 12

/-- JavaScript digit class `\d`. -/
def isDigitChar (c : Char) : Bool := '0' ≤ c ∧ c ≤ '9'

/-- The character class `[a-z]` with the `i` flag, i.e. an ASCII letter. -/
def isAsciiLetter (c : Char) : Bool := ('a' ≤ c ∧ c ≤ 'z') ∨ ('A' ≤ c ∧ c ≤ 'Z')

/-- JavaScript word-character class `\w` (used for `\b` word boundaries). -/
def isWordChar (c : Char) : Bool := isAsciiLetter c ∨ isDigitChar c ∨ c = '_'

/-- Strip leading whitespace (the left half of `String.prototype.trim`). -/
def trimLeft (s : Str) : Str := s.dropWhile isSpaceChar

/-- JavaScript `String.prototype.trim`. -/
def trimStr (s : Str) : Str := trimLeft ((trimLeft s.reverse).reverse)

/-- JavaScript `String.prototype.toLowerCase` on ASCII content. -/
def toLowerStr (s : Str) : Str := s.map Char.toLower

/-- JavaScript `String.prototype.toUpperCase` on ASCII content. -/
def toUpperStr (s : Str) : Str := s.map Char.toUpper

/-- Whether `pre` is a prefix of `s`, as a boolean (JS `startsWith`). -/
def startsWith (pre s : Str) : Bool := pre.isPrefixOf s

/-- Index of the first occurrence of substring `needle` in `s`
(JS `String.prototype.indexOf`, `none` for `-1`). -/
def subIdx (needle : Str) : Str → Option Nat
  | [] => if needle = [] then some 0 else none
  | c :: cs =>
      if needle.isPrefixOf (c :: cs) then some 0
      else (subIdx needle cs).map (· + 1)

/-- Substring containment (JS `String.prototype.includes`). -/
def containsStr (needle s : Str) : Bool := (subIdx needle s).isSome

/-- Index of the first occurrence of a character (JS `indexOf` on one char). -/
def charIdx (c : Char) (s : Str) : Option Nat := subIdx [c] s

/-- Index of the last occurrence of a character in `s`. -/
def lastCharIdx (c : Char) (s : Str) : Option Nat :=
  (subIdx [c] s.reverse).map (fun i => s.length - 1 - i)

/-- Decimal value of a digit string (JS `Number.parseInt(s, 10)` on a pure
digit run, idealized to unbounded naturals). -/
def natOfDigits (s : Str) : Nat := s.foldl (fun a c => a * 10 + (c.toNat - 48)) 0

/-- Decimal digit expansion of a natural number (for message interpolation). -/
def natCharsAux : Nat → Nat → Str
  | 0, _ => []
  | fuel + 1, n =>
      if n < 10 then [Char.ofNat (48 + n)]
      else natCharsAux fuel (n / 10) ++ [Char.ofNat (48 + n % 10)]

/-- Decimal rendering of a natural number. -/
def natChars (n : Nat) : Str := natCharsAux (n + 1) n

/-- Split text into lines at `\n` or `\r\n` (the analyzer's
`contents.split(/\r?\n/)`). -/
def splitLines : Str → List Str
  | [] => [[]]
  | '\r' :: '\n' :: rest => [] :: splitLines rest
  | '\n' :: rest => [] :: splitLines rest
  | c :: rest =>
      match splitLines rest with
      | [] => [[c]]
      | h :: t => (c :: h) :: t

/-- Collapse every maximal whitespace run to a single space
(JS `replace(/\s+/g, ' ')`). -/
def collapseWsAux : Bool → Str → Str
  | _, [] => []
  | inWs, c :: rest =>
      if isSpaceChar c then
        if inWs then collapseWsAux true rest else ' ' :: collapseWsAux true rest
      else c :: collapseWsAux false rest

/-- Collapse whitespace runs, starting outside a run. -/
def collapseWs (s : Str) : Str := collapseWsAux false s

/-- Split a list on a separator character, keeping empty fields. -/
def splitChar (sep : Char) : Str → List Str
  | [] => [[]]
  | c :: rest =>
      match splitChar sep rest with
      | [] => [[c]]
      | h :: t => if c = sep then [] :: h :: t else (c :: h) :: t

/-- One step of POSIX path-segment normalization: process a segment against
the stack of kept segments (Node `path.normalize` semantics). -/
def normSegStep (isAbs : Bool) (acc : List Str) (seg : Str) : List Str :=
  if seg = [] ∨ seg = ['.'] then acc
  else if seg = ['.', '.'] then
    match acc with
    | [] => if isAbs then [] else [seg]
    | top :: rest => if top = ['.', '.'] then seg :: acc else rest
  else seg :: acc

/-- Join path segments with `/`. -/
def joinSegs : List Str → Str
  | [] => []
  | [s] => s
  | s :: rest => s ++ '/' :: joinSegs rest

/-- Node `path.normalize` for forward-slash paths (trailing-slash
preservation is omitted; the analyzer's paths never carry trailing
slashes). -/
def posixNormalize (p : Str) : Str :=
  let isAbs := p.head? = some '/'
  let segs := (splitChar '/' p).foldl (normSegStep isAbs) []
  let body := joinSegs segs.reverse
  if isAbs then
    '/' :: body
  else if body = [] then ['.'] else body

/-- Node `path.dirname` for forward-slash paths. -/
def dirname (p : Str) : Str :=
  match lastCharIdx '/' p with
  | none => ['.']
  | some 0 => ['/']
  | some i => p.take i

/-- Node `path.basename` (no extension argument): the part after the last
slash. -/
def basenameRaw (p : Str) : Str :=
  match lastCharIdx '/' p with
  | none => p
  | some i => p.drop (i + 1)

/-- Node `path.basename(p, ext)`: the basename with the suffix `ext`
removed when it matches (case-sensitively) and is not the whole name. -/
def basenameExt (p ext : Str) : Str :=
  let b := basenameRaw p
  if b ≠ ext ∧ ext.isSuffixOf b then b.take (b.length - ext.length) else b

/-- Node `path.extname`: from the last dot of the basename, unless that dot
is its first character. -/
def extname (p : Str) : Str :=
  let b := basenameRaw p
  match lastCharIdx '.' b with
  | none => []
  | some 0 => []
  | some i => b.drop i

/-- Node POSIX `path.isAbsolute`. -/
def isPosixAbs (p : Str) : Bool := p.head? = some '/'

/-- Node `path.win32.isAbsolute` on a path whose backslashes were already
replaced by forward slashes: a leading slash or a drive letter followed by
`:/`. -/
def isWinAbs (p : Str) : Bool :=
  match p with
  | '/' :: _ => true
  | c0 :: ':' :: '/' :: _ => isAsciiLetter c0
  | _ => false

/-- Node `path.resolve(baseDir, rel)` for an absolute `baseDir`, as used by
the analyzer. -/
def pathResolve (baseDir rel : Str) : Str :=
  if isPosixAbs rel then posixNormalize rel
  else posixNormalize (baseDir ++ '/' :: rel)

/-- A zero-based editor range (`vscode.Range` restricted to what the
analyzer constructs). -/
structure Range where
  startLine : Nat
  startChar : Nat
  endLine : Nat
  endChar : Nat
  deriving DecidableEq, Repr

/-- `vscode.DiagnosticSeverity`. -/
inductive Severity where
  | error
  | warning
  | information
  | hint
  deriving DecidableEq, Repr

/-- A diagnostic as the analyzer produces it: a range within one file, a
message, and a severity. -/
structure Diagnostic where
  range : Range
  message : Str
  severity : Severity
  deriving DecidableEq, Repr

/-- `CONTROL_FILE_EXTENSIONS` from `constants.ts`. -/
def CONTROL_FILE_EXTENSIONS : List Str :=
  [chars ".tcf", chars ".tgc", chars ".tbc", chars ".trd",
   chars ".ecf", chars ".qcf", chars ".tef"]

/-- `LATEST_CHECK_CONTROL_EXTENSIONS` from `constants.ts`. -/
def LATEST_CHECK_CONTROL_EXTENSIONS : List Str :=
  [chars ".tcf", chars ".tgc", chars ".tbc", chars ".trd",
   chars ".ecf", chars ".qcf"]

/-- `ISSUE_SUMMARY_SEVERITY` from `constants.ts`. -/
def ISSUE_SUMMARY_SEVERITY : Severity := .warning

/-- Boolean membership of a string in a string list (`Set.has`). -/
def strMem (e : Str) (l : List Str) : Bool := l.any (fun x => x == e)

/-- The external environment of the analyzer: the file system consumed
through `fs` plus the two configuration flags read through `config.ts`.
`readdir dir` returns the full paths of the plain files in `dir`
(`fs.readdirSync` filtered by `isFile`, joined with the directory), or
`none` when the read throws. -/
structure Env where
  files : List (Str × Str)
  readdir : Str → Option (List Str)
  ifChecksEnabled : Bool
  latestEnabled : Bool

/-- `fs.existsSync`, over the environment's file table. -/
def fsExists (env : Env) (p : Str) : Bool :=
  env.files.any (fun pr => pr.1 == p)

/-- `safeReadFile` from `io.ts`: the file's contents, or `none` when the
read fails. -/
def safeReadFile (env : Env) (p : Str) : Option Str :=
  (env.files.find? (fun pr => pr.1 == p)).map Prod.snd

/-- `LatestCheckContext` from `versioning.ts`. -/
structure LatestCheckContext where
  tcfFilesByFolder : List (Str × List Str)
  latestTcfReferencedControls : List Str
  deriving Repr

/-- Scenario/event marker letter (`[se]` with the `i` flag). -/
def isScenChar (c : Char) : Bool := c = 's' ∨ c = 'S' ∨ c = 'e' ∨ c = 'E'

/-- The digit class `[1-9]` of the scenario/event token pattern. -/
def isDigit19 (c : Char) : Bool := '1' ≤ c ∧ c ≤ '9'

/-- Whether a string is exactly one scenario/event token `~s1~`..`~e9~`
(case-insensitive), i.e. a full match of `SCENARIO_EVENT_TOKEN_REGEX`. -/
def isScenarioEventToken (t : Str) : Bool :=
  match t with
  | ['~', c, d, '~'] => isScenChar c ∧ isDigit19 d
  | _ => false

/-- `stripScenarioEventTokens` from `versioning.ts`:
`value.replace(/~[se][1-9]~/gi, '')`, i.e. a left-to-right scan removing
each leftmost token match and continuing after it. -/
def stripScenarioEventTokens : Str → Str
  | [] => []
  | '~' :: c :: d :: '~' :: rest =>
      if isScenChar c ∧ isDigit19 d then stripScenarioEventTokens rest
      else '~' :: stripScenarioEventTokens (c :: d :: '~' :: rest)
  | c :: rest => c :: stripScenarioEventTokens rest

/-- `VersionMatch` from `versioning.ts` (the source's `end` field is named
`stop` because `end` is a Lean keyword). -/
structure VersionMatch where
  raw : Str
  value : Nat
  start : Nat
  stop : Nat
  deriving DecidableEq, Repr

/-- Maximal digit runs of a string with their half-open index ranges, in
order (the successive matches of the global regex `/\d+/g`).  The
accumulator holds the start index of a digit run still being scanned. -/
def digitRunsAux : Str → Nat → Option Nat → List (Nat × Nat)
  | [], _, none => []
  | [], i, some st => [(st, i)]
  | c :: cs, i, none =>
      if isDigitChar c then digitRunsAux cs (i + 1) (some i)
      else digitRunsAux cs (i + 1) none
  | c :: cs, i, some st =>
      if isDigitChar c then digitRunsAux cs (i + 1) (some st)
      else (st, i) :: digitRunsAux cs (i + 1) none

/-- All maximal digit runs of `s`. -/
def digitRuns (s : Str) : List (Nat × Nat) := digitRunsAux s 0 none

/-- The character right after position `en`, if any, is an ASCII letter
(the `nextIsLetter` test of `getVersionMatches`). -/
def letterAfter (s : Str) (en : Nat) : Bool :=
  match (s.drop en).head? with
  | some c => isAsciiLetter c
  | none => false

/-- `getVersionMatches` from `versioning.ts`: every maximal digit run of
the (cleaned) base name that is not immediately followed by a letter,
with its raw text and decimal value. -/
def getVersionMatches (s : Str) : List VersionMatch :=
  (digitRuns s).filterMap fun pr =>
    if letterAfter s pr.2 then none
    else
      let raw := (s.drop pr.1).take (pr.2 - pr.1)
      some { raw := raw, value := natOfDigits raw, start := pr.1, stop := pr.2 }

/-- `buildVersionPattern` from `versioning.ts`: the name with the matched
run replaced by the placeholder `#`. -/
def buildVersionPattern (s : Str) (m : VersionMatch) : Str :=
  s.take m.start ++ '#' :: s.drop m.stop

/-- The four-valued status of `getLatestVersionStatus`. -/
inductive VersionStatus where
  | noVersion
  | ambiguous
  | latest
  | notLatest
  deriving DecidableEq, Repr

/-- `LatestVersionResult` from `versioning.ts`. -/
structure LatestVersionResult where
  status : VersionStatus
  currentVersion : Option Nat := none
  latestVersion : Option Nat := none
  deriving DecidableEq, Repr

/-- The sibling fold of `getLatestVersionStatus`: fold the known-latest
version over one candidate entry (skip on extension mismatch, a run count
other than one, or a series-pattern mismatch; otherwise keep the larger
version). -/
def latestFoldStep (ext pattern : Str) (acc : Nat) (entryPath : Str) : Nat :=
  if toLowerStr (extname entryPath) ≠ ext then acc
  else
    let entryCleaned := toLowerStr (stripScenarioEventTokens (basenameExt entryPath ext))
    match getVersionMatches entryCleaned with
    | [em] =>
        if buildVersionPattern entryCleaned em ≠ pattern then acc
        else if em.value > acc then em.value else acc
    | _ => acc

/-- `getLatestVersionStatus` from `versioning.ts`. -/
def getLatestVersionStatus (env : Env) (filePath : Str)
    (candidateFiles : Option (List Str) := none) : LatestVersionResult :=
  let ext := toLowerStr (extname filePath)
  let baseName := basenameExt filePath ext
  let cleanedBaseName := toLowerStr (stripScenarioEventTokens baseName)
  match getVersionMatches cleanedBaseName with
  | [] => { status := .noVersion }
  | [currentMatch] =>
      let currentVersion := currentMatch.value
      let currentPattern := buildVersionPattern cleanedBaseName currentMatch
      match candidateFiles with
      | some entries =>
          let latestVersion := entries.foldl (latestFoldStep ext currentPattern) currentVersion
          if currentVersion = latestVersion then
            { status := .latest, currentVersion := some currentVersion,
              latestVersion := some latestVersion }
          else
            { status := .notLatest, currentVersion := some currentVersion,
              latestVersion := some latestVersion }
      | none =>
          match env.readdir (dirname filePath) with
          | none =>
              { status := .latest, currentVersion := some currentVersion,
                latestVersion := some currentVersion }
          | some entries =>
              let latestVersion := entries.foldl (latestFoldStep ext currentPattern) currentVersion
              if currentVersion = latestVersion then
                { status := .latest, currentVersion := some currentVersion,
                  latestVersion := some latestVersion }
              else
                { status := .notLatest, currentVersion := some currentVersion,
                  latestVersion := some latestVersion }
  | _ => { status := .ambiguous }

/-- The ambiguity warning message of `versioning.ts`. -/
def ambiguousMsg (filePath : Str) : Str :=
  chars "Unable to determine latest version for \"" ++ basenameRaw filePath ++
    chars "\" because multiple numeric tokens were found."

/-- The staleness warning message of `checkReferencedFileLatestVersion`. -/
def notLatestMsg (filePath : Str) (currentVersion latestVersion : Nat) : Str :=
  chars "Referenced file is not the latest version in its folder: " ++
    basenameRaw filePath ++ chars " (found " ++ natChars currentVersion ++
    chars ", latest " ++ natChars latestVersion ++ chars ")."

/-- `filterReferencedControlCandidates` from `versioning.ts`. -/
def filterReferencedControlCandidates (filePath : Str)
    (referencedControls : List Str) : List Str :=
  let ext := toLowerStr (extname filePath)
  let dir := dirname filePath
  referencedControls.filter fun referencedPath =>
    toLowerStr (extname referencedPath) == ext ∧ dirname referencedPath == dir

/-- `getCandidateFilesForLatestStatus` from `versioning.ts`. -/
def getCandidateFilesForLatestStatus (ctx : LatestCheckContext)
    (filePath : Str) : Option (List Str) :=
  let ext := toLowerStr (extname filePath)
  if ext = chars ".tcf" then
    (ctx.tcfFilesByFolder.find? (fun pr => pr.1 == dirname filePath)).map Prod.snd
  else if ¬ strMem ext LATEST_CHECK_CONTROL_EXTENSIONS ∨ ext = chars ".tcf" then
    none
  else if ctx.latestTcfReferencedControls = [] then
    none
  else
    some (filterReferencedControlCandidates filePath ctx.latestTcfReferencedControls)

/-- `shouldCheckLatestReferencedVersions` from `versioning.ts`.  The source
pushes the ambiguity warning into the caller's diagnostics array; here the
pushed diagnostics are returned alongside the boolean. -/
def shouldCheckLatestReferencedVersions (env : Env) (ctx : LatestCheckContext)
    (filePath : Str) : Bool × List Diagnostic :=
  if ¬ env.latestEnabled then (false, [])
  else
    let ext := toLowerStr (extname filePath)
    if ¬ strMem ext LATEST_CHECK_CONTROL_EXTENSIONS then (false, [])
    else
      let normalizedPath := posixNormalize filePath
      if ext ≠ chars ".tcf" ∧ ctx.latestTcfReferencedControls ≠ [] ∧
          ¬ strMem normalizedPath ctx.latestTcfReferencedControls then
        (false, [])
      else
        let candidateFiles := getCandidateFilesForLatestStatus ctx filePath
        let status := getLatestVersionStatus env filePath candidateFiles
        if status.status = .ambiguous then
          (false, [{ range := ⟨0, 0, 0, 0⟩, message := ambiguousMsg filePath,
                     severity := .warning }])
        else
          (status.status = .latest ∨
            (ext = chars ".tcf" ∧ status.status = .noVersion), [])

/-- `checkReferencedFileLatestVersion` from `versioning.ts`, returning the
diagnostics it pushes. -/
def checkReferencedFileLatestVersion (env : Env) (filePath : Str)
    (range : Range) : List Diagnostic :=
  if ¬ env.latestEnabled then []
  else
    let status := getLatestVersionStatus env filePath none
    if status.status = .ambiguous then
      [{ range := range, message := ambiguousMsg filePath, severity := .warning }]
    else if status.status = .notLatest then
      let currentVersion := status.currentVersion.getD 0
      let latestVersion := status.latestVersion.getD currentVersion
      [{ range := range, message := notLatestMsg filePath currentVersion latestVersion,
         severity := .warning }]
    else []

/-- Whether a trimmed candidate parses as a JavaScript number, modelling
`!isNaN(Number(value))`: the empty/whitespace string, decimal literals with
optional sign, fraction and exponent, `Infinity`, and unsigned binary,
octal and hexadecimal literals. -/
def isJSNumeric (v : Str) : Bool :=
  let t := trimStr v
  let isHexDigit : Char → Bool := fun c =>
    isDigitChar c ∨ ('a' ≤ c ∧ c ≤ 'f') ∨ ('A' ≤ c ∧ c ≤ 'F')
  let decimalBody : Str → Bool := fun s =>
    let intPart := s.takeWhile isDigitChar
    let rest1 := s.drop intPart.length
    let fracOk :=
      match rest1 with
      | '.' :: fr =>
          let fracPart := fr.takeWhile isDigitChar
          some (fr.drop fracPart.length, intPart.length + fracPart.length != 0)
      | _ => some (rest1, intPart.length != 0)
    let expOk : Str → Bool := fun rest2 =>
      match rest2 with
      | [] => true
      | e :: es =>
          (e = 'e' ∨ e = 'E') ∧
            (let es2 := match es with
              | '+' :: tl => tl
              | '-' :: tl => tl
              | tl => tl
             es2 ≠ [] ∧ es2.all isDigitChar)
    match fracOk with
    | some (rest2, digitsOk) => digitsOk ∧ expOk rest2
    | none => false
  match t with
  | [] => true
  | '0' :: x :: rest =>
      if x = 'x' ∨ x = 'X' then rest ≠ [] ∧ rest.all isHexDigit
      else if x = 'b' ∨ x = 'B' then rest ≠ [] ∧ rest.all (fun c => c = '0' ∨ c = '1')
      else if x = 'o' ∨ x = 'O' then rest ≠ [] ∧ rest.all (fun c => '0' ≤ c ∧ c ≤ '7')
      else decimalBody t
  | '+' :: body => body = chars "Infinity" ∨ decimalBody body
  | '-' :: body => body = chars "Infinity" ∨ decimalBody body
  | body => body = chars "Infinity" ∨ decimalBody body

/-- `isLikelyFile` from `pathParsing.ts`. -/
def isLikelyFile (value : Str) : Bool :=
  if isJSNumeric value then false
  else if containsStr (chars "/") value ∨ containsStr (chars "\\") value then true
  else if extname value ≠ [] then true
  else
    let keywords := [chars "ON", chars "OFF", chars "HPC", chars "GPU",
                     chars "SM", chars "DOUBLE", chars "SINGLE"]
    if strMem (toUpperStr value) keywords then false
    else false

/-- `normalizeKey` from `pathParsing.ts`. -/
def normalizeKey (keyText : Str) : Str := toUpperStr (trimStr (collapseWs keyText))

/-- `shouldSkipKeyForFileLookup` from `pathParsing.ts`. -/
def shouldSkipKeyForFileLookup (keyText : Str) : Bool :=
  let normalized := normalizeKey keyText
  if normalized = chars "PAUSE" then true
  else
    [chars "DEFINE EVENT", chars "IF EVENT", chars "ELSE IF EVENT",
     chars "ELSEIF EVENT", chars "BC EVENT SOURCE"].any
      fun pre => startsWith pre normalized

/-- `containsUnresolvedToken` from `pathParsing.ts`. -/
def containsUnresolvedToken (value : Str) : Bool :=
  containsStr (chars "<<") value ∨ containsStr (chars ">>") value

/-- `resolvePath` from `pathParsing.ts`. -/
def resolvePath (baseDir rawPath : Str) : Str :=
  let normalized := rawPath.map (fun c => if c = '\\' then '/' else c)
  if isPosixAbs normalized ∨ isWinAbs normalized then normalized
  else pathResolve baseDir normalized

/-- A path candidate extracted from a `Command == Value` line. -/
structure Candidate where
  text : Str
  range : Range
  deriving DecidableEq, Repr

/-- Maximal `|`-free segments of the value text with their start indices
(the successive matches of `/[^|]+/g`).  The accumulator holds the start
index and reversed characters of a segment still being scanned. -/
def segsAux : Str → Nat → Option (Nat × Str) → List (Nat × Str)
  | [], _, none => []
  | [], _, some (st, acc) => [(st, acc.reverse)]
  | c :: rest, i, none =>
      if c = '|' then segsAux rest (i + 1) none
      else segsAux rest (i + 1) (some (i, [c]))
  | c :: rest, i, some (st, acc) =>
      if c = '|' then (st, acc.reverse) :: segsAux rest (i + 1) none
      else segsAux rest (i + 1) (some (st, c :: acc))

/-- All `|`-separated segments of a value with their start indices. -/
def segsWithIdx (s : Str) : List (Nat × Str) := segsAux s 0 none

/-- `extractPathCandidates` from `pathParsing.ts`. -/
def extractPathCandidates (valueText : Str) (valueStartIndex lineIndex : Nat) :
    List Candidate :=
  (segsWithIdx valueText).filterMap fun pr =>
    let segmentText := pr.2
    if containsStr (chars "<<") segmentText ∧ containsStr (chars ">>") segmentText then
      none
    else
      let pathPortion :=
        match subIdx (chars ">>") segmentText with
        | some layerIndex => segmentText.take layerIndex
        | none => segmentText
      let trimmed := trimStr pathPortion
      if trimmed = [] then none
      else
        let leadingWhitespace := pathPortion.length - (trimLeft pathPortion).length
        let startChar := valueStartIndex + pr.1 + leadingWhitespace
        some { text := trimmed,
               range := ⟨lineIndex, startChar, lineIndex, startChar + trimmed.length⟩ }

/-- `checkVersionTokenInFilename` from `versioning.ts`, returning the
diagnostics it pushes. -/
def checkVersionTokenInFilename (keyText valueText : Str)
    (valueStartIndex lineIndex : Nat) (filePath : Str) : List Diagnostic :=
  if normalizeKey keyText ≠ chars "SET VARIABLE VERSION" then []
  else
    let versionValue := (trimStr valueText).takeWhile (fun c => ¬ isSpaceChar c)
    if versionValue = [] then []
    else
      let baseName := basenameRaw filePath
      let found := containsStr versionValue baseName
      let message :=
        if found then
          chars "Version token \"" ++ versionValue ++ chars "\" found in filename."
        else
          chars "Version token \"" ++ versionValue ++ chars "\" not found in filename."
      let severity : Severity := if found then .information else .warning
      let valueIndex := (subIdx versionValue valueText).getD 0
      let startChar := valueStartIndex + valueIndex
      [{ range := ⟨lineIndex, startChar, lineIndex, startChar + versionValue.length⟩,
         message := message, severity := severity }]

/-- The successive matches of `/<<([^>]+)>>/g` over a value: the start index
of each `<<`, together with the raw inner capture (untrimmed, `>`-free and
nonempty).  After a match the scan continues past its closing `>>`; after a
failed attempt it advances one character. -/
def angleTokenGo : Nat → Str → Nat → List (Nat × Str)
  | 0, _, _ => []
  | _, [], _ => []
  | fuel + 1, '<' :: '<' :: rest, i =>
      let inner := rest.takeWhile (fun c => c ≠ '>')
      let after := rest.drop inner.length
      if inner ≠ [] ∧ startsWith (chars ">>") after then
        (i, inner) :: angleTokenGo fuel (after.drop 2) (i + inner.length + 4)
      else
        angleTokenGo fuel ('<' :: rest) (i + 1)
  | fuel + 1, _ :: rest, i => angleTokenGo fuel rest (i + 1)

/-- Scan a value for `<<...>>` matches.  Every step of `angleTokenGo`
advances at least one character, so `length + 1` steps always complete the
scan. -/
def angleTokenScan (s : Str) (i : Nat) : List (Nat × Str) :=
  angleTokenGo (s.length + 1) s i

/-- `checkScenarioEventTokensInValue` from `versioning.ts`, returning the
diagnostics it pushes.  The loop deduplicates tokens by their lowercased
trimmed text and warns when the filename lacks the token. -/
def scenarioTokenLoop (baseName : Str) (valueStartIndex lineIndex : Nat) :
    List (Nat × Str) → List Str → List Diagnostic
  | [], _ => []
  | (idx, inner) :: rest, seen =>
      let token := trimStr inner
      if token = [] then scenarioTokenLoop baseName valueStartIndex lineIndex rest seen
      else if ¬ isScenarioEventToken token then
        scenarioTokenLoop baseName valueStartIndex lineIndex rest seen
      else
        let normalizedToken := toLowerStr token
        if strMem normalizedToken seen then
          scenarioTokenLoop baseName valueStartIndex lineIndex rest seen
        else
          let seen2 := seen ++ [normalizedToken]
          if ¬ containsStr normalizedToken baseName then
            let startChar := valueStartIndex + idx
            let endChar := startChar + inner.length + 4
            { range := ⟨lineIndex, startChar, lineIndex, endChar⟩,
              message := chars "Filename is missing token \"" ++ token ++
                chars "\" listed in this control file.",
              severity := .warning } ::
              scenarioTokenLoop baseName valueStartIndex lineIndex rest seen2
          else scenarioTokenLoop baseName valueStartIndex lineIndex rest seen2

/-- `checkScenarioEventTokensInValue` from `versioning.ts`. -/
def checkScenarioEventTokensInValue (valueText : Str)
    (valueStartIndex lineIndex : Nat) (filePath : Str) : List Diagnostic :=
  let baseName := toLowerStr (basenameRaw filePath)
  scenarioTokenLoop baseName valueStartIndex lineIndex (angleTokenScan valueText 0) []

/-- Case-insensitively chomp the literal `pat` (given lowercase) off the
head of `s`. -/
def chompCI (pat : String) (s : Str) : Option Str :=
  let p := pat.toList
  if toLowerStr (s.take p.length) = p then some (s.drop p.length) else none

/-- A `\b` word boundary right after a word character: the next character,
if any, is not a word character. -/
def boundaryNonWord (r : Str) : Bool :=
  match r.head? with
  | some c => ¬ isWordChar c
  | none => true

/-- `\b\s+` after a word: the next character must be whitespace; the
following literal never begins with whitespace, so the greedy `\s+` is
equivalent to dropping the whole run. -/
def spaced (r : Str) : Option Str :=
  match r with
  | c :: rest => if isSpaceChar c then some (trimLeft rest) else none
  | [] => none

/-- `(event|scenario)\s*==`: the tail of the conditional-opener regexes. -/
def eventScenarioEq (r : Str) : Bool :=
  match chompCI "event" r with
  | some r2 => startsWith (chars "==") (trimLeft r2)
  | none =>
      match chompCI "scenario" r with
      | some r2 => startsWith (chars "==") (trimLeft r2)
      | none => false

/-- `IF_STATEMENT_REGEX` = `/^\s*if\b\s+(event|scenario)\s*==/i`. -/
def ifStmtTest (s : Str) : Bool :=
  match chompCI "if" (trimLeft s) with
  | some r =>
      match spaced r with
      | some r2 => eventScenarioEq r2
      | none => false
  | none => false

/-- `ELSE_IF_REGEX` = `/^\s*else\b\s+if\b\s+(event|scenario)\s*==/i`. -/
def elseIfTest (s : Str) : Bool :=
  match chompCI "else" (trimLeft s) with
  | some r =>
      match spaced r with
      | some r2 =>
          match chompCI "if" r2 with
          | some r3 =>
              match spaced r3 with
              | some r4 => eventScenarioEq r4
              | none => false
          | none => false
      | none => false
  | none => false

/-- `END_IF_REGEX` = `/^\s*end\b\s*if\b/i`.  The `\s*` is only satisfiable
through whitespace because `if` cannot start at the boundary character. -/
def endIfTest (s : Str) : Bool :=
  match chompCI "end" (trimLeft s) with
  | some r =>
      let ifPart : Bool :=
        match chompCI "if" (trimLeft r) with
        | some r2 => boundaryNonWord r2
        | none => false
      boundaryNonWord r ∧ ifPart
  | none => false

/-- The shared shape of `/^\s*w1\b\s+w2\b/i`. -/
def twoWordTest (w1 w2 : String) (s : Str) : Bool :=
  match chompCI w1 (trimLeft s) with
  | some r =>
      match spaced r with
      | some r2 =>
          match chompCI w2 r2 with
          | some r3 => boundaryNonWord r3
          | none => false
      | none => false
  | none => false

/-- The shared shape of `/^\s*w1\b\s+w2\b\s+w3\b/i`. -/
def threeWordTest (w1 w2 w3 : String) (s : Str) : Bool :=
  match chompCI w1 (trimLeft s) with
  | some r =>
      match spaced r with
      | some r2 =>
          match chompCI w2 r2 with
          | some r3 =>
              match spaced r3 with
              | some r4 =>
                  match chompCI w3 r4 with
                  | some r5 => boundaryNonWord r5
                  | none => false
              | none => false
          | none => false
      | none => false
  | none => false

/-- `DEFINE_EVENT_REGEX` = `/^\s*define\b\s+event\b/i`. -/
def defineEventTest (s : Str) : Bool := twoWordTest "define" "event" s

/-- `END_DEFINE_REGEX` = `/^\s*end\b\s+define\b/i`. -/
def endDefineTest (s : Str) : Bool := twoWordTest "end" "define" s

/-- `START_1D_DOMAIN_REGEX` = `/^\s*start\b\s+1d\b\s+domain\b/i`. -/
def start1dTest (s : Str) : Bool := threeWordTest "start" "1d" "domain" s

/-- `END_1D_DOMAIN_REGEX` = `/^\s*end\b\s+1d\b\s+domain\b/i`. -/
def end1dTest (s : Str) : Bool := threeWordTest "end" "1d" "domain" s

/-- `START_2D_DOMAIN_REGEX` = `/^\s*start\b\s+2d\b\s+domain\b/i`. -/
def start2dTest (s : Str) : Bool := threeWordTest "start" "2d" "domain" s

/-- `END_2D_DOMAIN_REGEX` = `/^\s*end\b\s+2d\b\s+domain\b/i`. -/
def end2dTest (s : Str) : Bool := threeWordTest "end" "2d" "domain" s

/-- `BlockKind` from `diagnostics.ts` (`if` is a Lean keyword, hence
`ifBlock`). -/
inductive BlockKind where
  | ifBlock
  | defineEvent
  | start1dDomain
  | start2dDomain
  deriving DecidableEq, Repr

/-- `BlockEntry` from `diagnostics.ts`. -/
structure BlockEntry where
  kind : BlockKind
  range : Range
  message : Str
  deriving DecidableEq, Repr

/-- `popBlock` from `diagnostics.ts`: pop only when the top of the stack
has the matching kind.  The source pushes and pops at the array's end, so
the top is the last element. -/
def popBlock (stack : List BlockEntry) (kind : BlockKind) : List BlockEntry :=
  match stack.getLast? with
  | none => stack
  | some top => if top.kind = kind then stack.dropLast else stack

/-- The comment-stripped content of a line, as `updateBlockStack` computes
it: everything before the first `!`. -/
def lineContentOf (line : Str) : Str :=
  match charIdx '!' line with
  | some commentIndex => line.take commentIndex
  | none => line

/-- The first non-whitespace column of the comment-stripped line content
(the length of the `^\s*` match in `updateBlockStack`). -/
def startCharOf (line : Str) : Nat :=
  (lineContentOf line).length - (trimLeft (lineContentOf line)).length

/-- `updateBlockStack` from `diagnostics.ts`. -/
def updateBlockStack (line : Str) (lineIndex : Nat)
    (stack : List BlockEntry) : List BlockEntry :=
  let lineContent := lineContentOf line
  if trimStr lineContent = [] then stack
  else
    let startChar := startCharOf line
    if endIfTest lineContent then popBlock stack .ifBlock
    else if endDefineTest lineContent then popBlock stack .defineEvent
    else if end1dTest lineContent then popBlock stack .start1dDomain
    else if end2dTest lineContent then popBlock stack .start2dDomain
    else if elseIfTest lineContent then stack
    else if ifStmtTest lineContent then
      stack ++ [{ kind := .ifBlock,
                  range := ⟨lineIndex, startChar, lineIndex, startChar + 2⟩,
                  message := chars "If statement is missing a closing End If." }]
    else if defineEventTest lineContent then
      stack ++ [{ kind := .defineEvent,
                  range := ⟨lineIndex, startChar, lineIndex, startChar + 6⟩,
                  message := chars "Define Event statement is missing a closing End Define." }]
    else if start1dTest lineContent then
      stack ++ [{ kind := .start1dDomain,
                  range := ⟨lineIndex, startChar, lineIndex, startChar + 5⟩,
                  message := chars "Start 1D Domain statement is missing a closing End 1D Domain." }]
    else if start2dTest lineContent then
      stack ++ [{ kind := .start2dDomain,
                  range := ⟨lineIndex, startChar, lineIndex, startChar + 5⟩,
                  message := chars "Start 2D Domain statement is missing a closing End 2D Domain." }]
    else stack

/-- The memo map of the traversal: normalized path to the diagnostics
recorded for that file so far (`visited` in `analyzeFile`).  In the source
the map holds live references to the arrays being filled; here the entry
for a file is rewritten from its owner's running list at every point where
another call could observe it (before each recursive call and on return). -/
abbrev Visited := List (Str × List Diagnostic)

/-- Map lookup (`visited.get`). -/
def vlookup (v : Visited) (k : Str) : Option (List Diagnostic) :=
  (v.find? (fun pr => pr.1 == k)).map Prod.snd

/-- Map update (`visited.set`): replace in place, else append. -/
def vset : Visited → Str → List Diagnostic → Visited
  | [], k, d => [(k, d)]
  | (k0, d0) :: rest, k, d =>
      if k0 = k then (k0, d) :: rest else (k0, d0) :: vset rest k d

/-- The per-file constants of one `analyzeFile` activation. -/
structure FileCtx where
  np : Str
  docDir : Str
  isTcf : Bool
  checkLatest : Bool

/-- Outcome of the line loop of `analyzeFile`: either the file-level ignore
directive fired, or the loop ran to completion. -/
inductive LineLoopOut where
  | ignoredFile (v : Visited)
  | done (d : List Diagnostic) (stack : List BlockEntry) (v : Visited)
  deriving DecidableEq

/-- The recursive analysis of one referenced file, abstracted so that the
loops below need not be mutually recursive with `analyzeFile`. -/
abbrev ChildFun := Str → Str → Visited → List Diagnostic × Visited

/-- The candidate loop of `analyzeFile` (`for (const candidate of
candidates)`): skip non-files and unresolved macros, report missing files,
run the staleness check, and recurse into referenced control files,
summarizing a child's nonzero diagnostic count on the parent line. -/
def processCandidates (child : ChildFun) (env : Env) (fc : FileCtx) :
    List Candidate → List Diagnostic → Visited → List Diagnostic × Visited
  | [], d, v => (d, v)
  | cand :: rest, d, v =>
      if ¬ isLikelyFile cand.text ∨ containsUnresolvedToken cand.text then
        processCandidates child env fc rest d v
      else
        let resolved := resolvePath fc.docDir cand.text
        if ¬ fsExists env resolved then
          processCandidates child env fc rest
            (d ++ [{ range := cand.range,
                     message := chars "File not found: " ++ cand.text,
                     severity := .error }]) v
        else
          let d1 :=
            if fc.checkLatest then
              d ++ checkReferencedFileLatestVersion env resolved cand.range
            else d
          if strMem (toLowerStr (extname resolved)) CONTROL_FILE_EXTENSIONS then
            match safeReadFile env resolved with
            | none => processCandidates child env fc rest d1 v
            | some childContents =>
                let v1 := vset v fc.np d1
                let res := child resolved childContents v1
                let d2 :=
                  if res.1.length > 0 then
                    d1 ++ [{ range := cand.range,
                             message := chars "Referenced file has " ++
                               natChars res.1.length ++ chars " issue(s): " ++
                               basenameRaw resolved,
                             severity := ISSUE_SUMMARY_SEVERITY }]
                  else d1
                processCandidates child env fc rest d2 res.2
          else processCandidates child env fc rest d1 v

/-- The line loop of `analyzeFile`: file-level ignore handling, blank-line
skipping, block-stack maintenance, `==` splitting, line-level ignore
handling, the `.tcf`-only token checks, key-based lookup skipping, and the
candidate loop. -/
def processLines (child : ChildFun) (env : Env) (fc : FileCtx) :
    List Str → Nat → List Diagnostic → List BlockEntry → Visited → LineLoopOut
  | [], _, d, stack, v => .done d stack v
  | text :: rest, i, d, stack, v =>
      if startsWith (chars "!") (trimStr text) then
        let commentContent := trimStr ((trimStr text).drop 1)
        if startsWith (chars "tpf-ignore-file") commentContent then .ignoredFile v
        else processLines child env fc rest (i + 1) d stack v
      else if trimStr text = [] then
        processLines child env fc rest (i + 1) d stack v
      else
        let stack1 := if env.ifChecksEnabled then updateBlockStack text i stack else stack
        match subIdx (chars "==") text with
        | none => processLines child env fc rest (i + 1) d stack1 v
        | some separatorIndex =>
            let valueStartIndex := separatorIndex + 2
            let valueWithComment := text.drop valueStartIndex
            let commentIdx := charIdx '!' valueWithComment
            let lineIgnored :=
              match commentIdx with
              | some ci =>
                  startsWith (chars "tpf-ignore") (trimStr (valueWithComment.drop (ci + 1)))
              | none => false
            if lineIgnored then processLines child env fc rest (i + 1) d stack1 v
            else
              let valueText :=
                match commentIdx with
                | some ci => valueWithComment.take ci
                | none => valueWithComment
              let keyText := trimStr (text.take separatorIndex)
              let d1 :=
                if fc.isTcf then
                  d ++ checkVersionTokenInFilename keyText valueText valueStartIndex i fc.np
                    ++ checkScenarioEventTokensInValue valueText valueStartIndex i fc.np
                else d
              if shouldSkipKeyForFileLookup keyText then
                processLines child env fc rest (i + 1) d1 stack1 v
              else
                let candidates := extractPathCandidates valueText valueStartIndex i
                let res := processCandidates child env fc candidates d1 v
                processLines child env fc rest (i + 1) res.1 stack1 res.2

/-- The Error diagnostic emitted for a block entry left on the stack at
end-of-file. -/
def toBlockErr (e : BlockEntry) : Diagnostic :=
  { range := e.range, message := e.message, severity := .error }

/-- `analyzeFile` from `diagnostics.ts`.  The extra fuel argument bounds the
recursion depth; the fuel-independence theorem below shows that any fuel of
at least `2 * env.files.length + 2` computes the fixed point, so the source's
unbounded recursion is total.  A call that runs out of fuel returns the
empty result without touching the memo map. -/
def analyzeFile (fuel : Nat) (env : Env) (ctx : LatestCheckContext)
    (filePath contents : Str) (visited : Visited) : List Diagnostic × Visited :=
  let normalizedPath := posixNormalize filePath
  match vlookup visited normalizedPath with
  | some cached => (cached, visited)
  | none =>
      match fuel with
      | 0 => ([], visited)
      | n + 1 =>
          let visited1 := vset visited normalizedPath []
          let lines := splitLines contents
          let docDir := dirname normalizedPath
          let isTcf := toLowerStr (extname normalizedPath) = chars ".tcf"
          let latestInfo := shouldCheckLatestReferencedVersions env ctx normalizedPath
          let fc : FileCtx :=
            { np := normalizedPath, docDir := docDir, isTcf := isTcf,
              checkLatest := latestInfo.1 }
          match processLines (fun p c v => analyzeFile n env ctx p c v) env fc
              lines 0 latestInfo.2 [] visited1 with
          | .ignoredFile v2 => ([], vset v2 normalizedPath [])
          | .done d stack v2 =>
              let dFinal :=
                d ++ (if env.ifChecksEnabled ∧ stack ≠ [] then stack.map toBlockErr else [])
              (dFinal, vset v2 normalizedPath dFinal)

/-- `analyzeRootDocument` from `diagnostics.ts`, with the latest-check
context supplied by the caller (its construction scans the workspace) and
the fuel made explicit. -/
def analyzeRootDocument (fuel : Nat) (env : Env) (ctx : LatestCheckContext)
    (rootPath rootText : Str) : Visited :=
  (analyzeFile fuel env ctx rootPath rootText []).2

/-- Keyed lookup in an association list (the `Map.get` of the aggregator). -/
def alookup {α : Type} (m : List (Str × α)) (k : Str) : Option α :=
  (m.find? (fun pr => pr.1 == k)).map Prod.snd

/-- Keyed update in an association list (`Map.set`): replace in place, else
append. -/
def aset {α : Type} : List (Str × α) → Str → α → List (Str × α)
  | [], k, x => [(k, x)]
  | (k0, x0) :: rest, k, x =>
      if k0 = k then (k0, x) :: rest else (k0, x0) :: aset rest k x

/-- Keyed deletion in an association list (`Map.delete`). -/
def adelete {α : Type} : List (Str × α) → Str → List (Str × α)
  | [], _ => []
  | (k0, x0) :: rest, k => if k0 = k then rest else (k0, x0) :: adelete rest k

/-- The per-root store `rootDiagnosticsByRoot` of `diagnostics.ts`: root
document key to that root's per-file diagnostic map. -/
abbrev RootMap := List (Str × Visited)

/-- The diagnostics display surface plus the module-level `mergedFiles`
set: the collection maps a file path to its currently displayed list, and
`mergedFiles` records the keys written by the previous merge. -/
structure DiagState where
  collection : Visited
  mergedFiles : List Str
  deriving Repr

/-- Fold one root's per-file map into the accumulating merge (the inner
loop of `rebuildMergedDiagnostics`): push onto an existing entry, else
insert a copy. -/
def mergeInto (merged : Visited) (fileMap : Visited) : Visited :=
  fileMap.foldl
    (fun m pr =>
      match vlookup m pr.1 with
      | some existing => vset m pr.1 (existing ++ pr.2)
      | none => m ++ [(pr.1, pr.2)])
    merged

/-- The merge of all currently-tracked roots, in insertion order. -/
def mergeRoots (roots : RootMap) : Visited :=
  roots.foldl (fun m pr => mergeInto m pr.2) []

/-- `rebuildMergedDiagnostics` from `diagnostics.ts`: recompute the merge,
delete collection entries for files that dropped out of it, write every
merged entry, and remember the merged key set. -/
def rebuildMergedDiagnostics (roots : RootMap) (st : DiagState) : DiagState :=
  let merged := mergeRoots roots
  let col1 := st.mergedFiles.foldl
    (fun col filePath =>
      if (vlookup merged filePath).isNone then adelete col filePath else col)
    st.collection
  let col2 := merged.foldl (fun col pr => vset col pr.1 pr.2) col1
  { collection := col2, mergedFiles := merged.map Prod.fst }

/-- `removeDiagnosticsForDocument` from `diagnostics.ts`. -/
def removeDiagnosticsForDocument (rootKey : Str) (roots : RootMap)
    (st : DiagState) : RootMap × DiagState :=
  if (alookup roots rootKey).isNone then (roots, st)
  else
    let roots2 := adelete roots rootKey
    (roots2, rebuildMergedDiagnostics roots2 st)

/-- The root-entry replacement of `updateDiagnostics` from
`diagnostics.ts`, with the freshly computed per-file map supplied. -/
def updateDiagnostics (rootKey : Str) (fileDiags : Visited) (roots : RootMap)
    (st : DiagState) : RootMap × DiagState :=
  let roots2 := aset roots rootKey fileDiags
  (roots2, rebuildMergedDiagnostics roots2 st)

/-- A line carrying the file-level ignore directive: a comment line whose
content (after `!` and trimming) starts with `tpf-ignore-file`. -/
def isFileIgnoreLine (text : Str) : Bool :=
  startsWith (chars "!") (trimStr text) &&
    startsWith (chars "tpf-ignore-file") (trimStr ((trimStr text).drop 1))

/-- A line carrying the line-level ignore directive: a non-comment,
non-blank line with a `==` separator whose value comment (trimmed) starts
with `tpf-ignore`. -/
def lineInlineIgnored (text : Str) : Bool :=
  !startsWith (chars "!") (trimStr text) &&
    !(trimStr text == []) &&
    (match subIdx (chars "==") text with
     | some sep =>
         match charIdx '!' (text.drop (sep + 2)) with
         | some ci =>
             startsWith (chars "tpf-ignore") (trimStr ((text.drop (sep + 2)).drop (ci + 1)))
         | none => false
     | none => false)

/-- An empty latest-check context (latest-version scope machinery off or
trivial). -/
def ctxEmpty : LatestCheckContext := ⟨[], []⟩

/-- One-file environment: a `.tcf` with an unclosed `If Scenario` block,
block checks on. -/
def envIfScen : Env :=
  { files := [(chars "/w/r.tcf", chars "If Scenario == DEV")],
    readdir := fun _ => none, ifChecksEnabled := true, latestEnabled := false }

/-- The same unclosed `If Scenario` opener with a line-level ignore
directive appended, block checks on. -/
def envInline : Env :=
  { files := [(chars "/w/r.tcf", chars "If Scenario == DEV ! tpf-ignore")],
    readdir := fun _ => none, ifChecksEnabled := true, latestEnabled := false }

/-- A root whose text has a missing reference, then a file-level ignore
directive, then another missing reference. -/
def envIgnore : Env :=
  { files := [(chars "/w/r.tcf",
      chars "Read GIS == missing/bc.shp\n! tpf-ignore-file\nRead GIS == also/gone.shp")],
    readdir := fun _ => none, ifChecksEnabled := true, latestEnabled := false }

/-- The unmatched-`If` Error as produced by the analyzer. -/
def ifOpenErr : Diagnostic :=
  { range := ⟨0, 0, 0, 2⟩,
    message := chars "If statement is missing a closing End If.",
    severity := .error }

/-- An environment with no files and no readable directories. -/
def envEmpty : Env :=
  { files := [], readdir := fun _ => none,
    ifChecksEnabled := true, latestEnabled := true }

/-- A file context for a root at `/w/r.tcf` with staleness checks on. -/
def fcR : FileCtx :=
  { np := chars "/w/r.tcf", docDir := chars "/w", isTcf := true, checkLatest := true }

/-- A child analyzer that records nothing (used to instantiate the
higher-order candidate-loop lemmas at concrete inputs). -/
def childNone : ChildFun := fun _ _ v => ([], v)

/-- Directory `/m` holding `geom_v01.shp` and `geom_v02.shp` plus a
versionless `root.tcf` that references `geom_v01.shp`; latest-version
checks on. -/
def envStale : Env :=
  { files := [(chars "/m/root.tcf", chars "Read GIS == geom_v01.shp"),
              (chars "/m/geom_v01.shp", chars ""),
              (chars "/m/geom_v02.shp", chars "")],
    readdir := fun _ =>
      some [chars "/m/root.tcf", chars "/m/geom_v01.shp", chars "/m/geom_v02.shp"],
    ifChecksEnabled := false, latestEnabled := true }

/-- The same directory with the root referencing `geom_v02.shp` instead. -/
def envStale2 : Env :=
  { files := [(chars "/m/root.tcf", chars "Read GIS == geom_v02.shp"),
              (chars "/m/geom_v01.shp", chars ""),
              (chars "/m/geom_v02.shp", chars "")],
    readdir := fun _ =>
      some [chars "/m/root.tcf", chars "/m/geom_v01.shp", chars "/m/geom_v02.shp"],
    ifChecksEnabled := false, latestEnabled := true }

/-- Two control files that reference each other (`a.tcf` ↔ `b.tcf`). -/
def envCycle : Env :=
  { files := [(chars "/w/a.tcf", chars "Read File == b.tcf"),
              (chars "/w/b.tcf", chars "Read File == a.tcf")],
    readdir := fun _ => none, ifChecksEnabled := false, latestEnabled := false }

/-- The series key and version number that `getLatestVersionStatus`
assigns to a filename (extension already removed): the cleaned name's
version pattern and the single qualifying run's value, or `none` when the
run count differs from one. -/
def versionSeriesOf (baseName : Str) : Option (Str × Nat) :=
  let cleaned := toLowerStr (stripScenarioEventTokens baseName)
  match getVersionMatches cleaned with
  | [m] => some (buildVersionPattern cleaned m, m.value)
  | _ => none

/-- Union of two optional diagnostic lists, keeping presence. -/
def optAppend : Option (List Diagnostic) → Option (List Diagnostic) →
    Option (List Diagnostic)
  | some a, some b => some (a ++ b)
  | some a, none => some a
  | none, some b => some b
  | none, none => none

/-- The specified merged view of one file across all roots: the
concatenation, in root order, of every tracked root's diagnostic list for
that file (absent when no root tracks the file). -/
def mergedView (roots : RootMap) (f : Str) : Option (List Diagnostic) :=
  roots.foldl (fun acc pr => optAppend acc (vlookup pr.2 f)) none

/-- A sample File-not-found diagnostic used by the aggregator fixtures. -/
def dgX : Diagnostic :=
  { range := ⟨0, 0, 0, 1⟩, message := chars "File not found: x",
    severity := .error }

/-- Two roots both tracking `/x/f.shp`: one with a diagnostic, one with an
empty list. -/
def rootsC9 : RootMap :=
  [(chars "r1", [(chars "/x/f.shp", [dgX])]),
   (chars "r2", [(chars "/x/f.shp", [])])]

/-- The aggregator state after first merging both roots of `rootsC9`. -/
def stC9 : DiagState := rebuildMergedDiagnostics rootsC9 ⟨[], []⟩

/-- The character at position `k` is a digit (out-of-range positions are
not digits). -/
def digitAt (s : Str) (k : Nat) : Bool :=
  match s[k]? with
  | some c => isDigitChar c
  | none => false

/-- The character at position `k` is an ASCII letter (out-of-range
positions are not letters). -/
def letterAt (s : Str) (k : Nat) : Bool :=
  match s[k]? with
  | some c => isAsciiLetter c
  | none => false

/-- The half-open range `[st, en)` is a maximal digit run of `s`: nonempty,
all digits, not preceded and not followed by a digit. -/
def IsMaxDigitRun (s : Str) (st en : Nat) : Prop :=
  st < en ∧ en ≤ s.length ∧
    (∀ k, st ≤ k → k < en → digitAt s k = true) ∧
    (st = 0 ∨ digitAt s (st - 1) = false) ∧
    digitAt s en = false

/-- A qualifying run of the version matcher: a maximal digit run that is
not immediately followed by an ASCII letter. -/
def IsQualifyingRun (s : Str) (st en : Nat) : Prop :=
  IsMaxDigitRun s st en ∧ letterAt s en = false

/-- The cleaned base name that `getLatestVersionStatus` feeds to the
version matcher: basename without extension, scenario/event tokens
stripped, lowercased. -/
def cleanedNameOf (f : Str) : Str :=
  toLowerStr (stripScenarioEventTokens (basenameExt f (toLowerStr (extname f))))

/-- An environment with latest-version checks enabled and no files. -/
def envC3 : Env :=
  { files := [], readdir := fun _ => none,
    ifChecksEnabled := false, latestEnabled := true }

/-- A file whose cleaned name has two qualifying numeric runs. -/
def fAmbC3 : Str := chars "/m/out_01_02.shp"

/-- A file whose cleaned name has exactly one qualifying numeric run. -/
def fSingleC3 : Str := chars "/m/geom_v02.shp"

/-- A reference range for the version-check diagnostics. -/
def rC3 : Range := ⟨0, 0, 0, 4⟩

/-- The single version match of `fSingleC3`. -/
def mC3 : VersionMatch :=
  { raw := chars "02", value := 2, start := 6, stop := 8 }

/-- The visited map carried out of a line-loop outcome. -/
def ploutV : LineLoopOut → Visited
  | .ignoredFile v => v
  | .done _ _ v => v

/-- Every key of `v` is also a key of `w`: the visited map only grows. -/
def Subkeys (v w : Visited) : Prop :=
  ∀ x, (vlookup v x).isSome = true → (vlookup w x).isSome = true

/-- The normalized paths of the environment's file table: the only paths
the candidate loop can recurse into. -/
def normPaths (env : Env) : List Str :=
  env.files.map fun pr => posixNormalize pr.1

/-- The number of file-table paths not yet in the visited map. -/
def unvisitedCount (env : Env) (v : Visited) : Nat :=
  (normPaths env).countP fun x => (vlookup v x).isNone

/-- Fuel sufficient for one `analyzeFile` call: twice the unvisited
file-table paths plus the weight of the call's own path. -/
def fuelNeed (env : Env) (p : Str) (v : Visited) : Nat :=
  2 * unvisitedCount env v +
    (if (vlookup v (posixNormalize p)).isSome then 0
     else if strMem (posixNormalize p) (normPaths env) then 1 else 2)

/-- A memoized path is returned as-is, at any fuel, without touching the
visited map. -/
theorem analyzeFile_memo (fuel : Nat) (env : Env) (ctx : LatestCheckContext)
    (p c : Str) (v : Visited) (d : List Diagnostic)
    (h : vlookup v (posixNormalize p) = some d) :
    analyzeFile fuel env ctx p c v = (d, v) := by
  unfold analyzeFile
  simp [h]

/-- Looking up a key just set returns the value just set. -/
theorem vlookup_vset_self (v : Visited) (k : Str) (d : List Diagnostic) :
    vlookup (vset v k d) k = some d := by
  induction v with
  | nil => simp [vset, vlookup, List.find?]
  | cons pr rest ih =>
      obtain ⟨k0, d0⟩ := pr
      by_cases hk : k0 = k
      · simp [vset, hk, vlookup, List.find?]
      · simp only [vset, if_neg hk]
        simp only [vlookup, List.find?] at ih ⊢
        have : (k0 == k) = false := by simp [hk]
        simp [this, ih]

/-- A line loop that encounters a file-level ignore directive somewhere in
its remaining lines always exits through the `ignoredFile` outcome. -/
theorem pl_ignored (child : ChildFun) (env : Env) (fc : FileCtx) :
    ∀ (lines : List Str) (i : Nat) (d : List Diagnostic)
      (stack : List BlockEntry) (v : Visited),
      (∃ l ∈ lines, isFileIgnoreLine l = true) →
      ∃ v2, processLines child env fc lines i d stack v = .ignoredFile v2 := by
  intro lines
  induction lines with
  | nil => intro i d stack v h; obtain ⟨l, hl, _⟩ := h; exact absurd hl (List.not_mem_nil l)
  | cons text rest ih =>
      intro i d stack v h
      obtain ⟨l, hl, hig⟩ := h
      by_cases hbang : startsWith (chars "!") (trimStr text) = true
      · by_cases hfile :
            startsWith (chars "tpf-ignore-file") (trimStr ((trimStr text).drop 1)) = true
        · refine ⟨v, ?_⟩
          simp only [processLines]
          rw [if_pos hbang, if_pos hfile]
        · have hlr : l ∈ rest := by
            rcases List.mem_cons.mp hl with h1 | h1
            · exfalso
              rw [h1] at hig
              simp only [isFileIgnoreLine, Bool.and_eq_true] at hig
              exact hfile hig.2
            · exact h1
          simp only [processLines]
          rw [if_pos hbang, if_neg hfile]
          exact ih _ _ _ _ ⟨l, hlr, hig⟩
      · have hlr : l ∈ rest := by
          rcases List.mem_cons.mp hl with h1 | h1
          · exfalso
            rw [h1] at hig
            simp only [isFileIgnoreLine, Bool.and_eq_true] at hig
            exact hbang hig.1
          · exact h1
        simp only [processLines]
        rw [if_neg hbang]
        repeat' split
        all_goals exact ih _ _ _ _ ⟨l, hlr, hig⟩

/-- A line carrying a line-level ignore directive contributes nothing to
the analysis except its block-stack update: no diagnostics, no visited-map
changes, no recursion. -/
theorem pl_inline (child : ChildFun) (env : Env) (fc : FileCtx)
    (text : Str) (rest : List Str) (i : Nat) (d : List Diagnostic)
    (stack : List BlockEntry) (v : Visited)
    (h : lineInlineIgnored text = true) :
    processLines child env fc (text :: rest) i d stack v =
      processLines child env fc rest (i + 1) d
        (if env.ifChecksEnabled then updateBlockStack text i stack else stack) v := by
  simp only [lineInlineIgnored, Bool.and_eq_true, Bool.not_eq_true'] at h
  obtain ⟨⟨hbang, hblank⟩, hrest⟩ := h
  have hblank2 : ¬ (trimStr text = []) := by
    intro hcon
    rw [hcon] at hblank
    simp at hblank
  have hbang2 : ¬ (startsWith (chars "!") (trimStr text) = true) := by
    simp [hbang]
  rcases hsep : subIdx (chars "==") text with _ | sep
  · rw [hsep] at hrest; simp at hrest
  · simp only [hsep] at hrest
    rcases hci : charIdx '!' (text.drop (sep + 2)) with _ | ci
    · rw [hci] at hrest; simp at hrest
    · simp only [hci] at hrest
      simp only [processLines]
      rw [if_neg hbang2, if_neg hblank2]
      simp only [hsep, hci]
      rw [if_pos hrest]

/-- The head of a `dropWhile` residue fails the predicate. -/
theorem dropWhile_head_not {α : Type} (p : α → Bool) :
    ∀ (l : List α) (c : α) (t : List α), l.dropWhile p = c :: t → p c = false := by
  intro l
  induction l with
  | nil => intro c t h; simp [List.dropWhile] at h
  | cons a l ih =>
      intro c t h
      by_cases ha : p a = true
      · rw [List.dropWhile_cons_of_pos ha] at h
        exact ih c t h
      · rw [List.dropWhile_cons_of_neg ha] at h
        obtain ⟨h1, _⟩ := List.cons.inj h
        rw [← h1]
        exact Bool.eq_false_iff.mpr ha

/-- A string containing a non-whitespace character does not trim to the
empty string. -/
theorem trimStr_ne_nil {s : Str} {c : Char} (hc : c ∈ s)
    (hns : isSpaceChar c = false) : trimStr s ≠ [] := by
  intro hcon
  have hall := List.dropWhile_eq_nil_iff.mp hcon
  have hcr : c ∈ (trimLeft s.reverse).reverse := by
    have h1 : c ∈ s.reverse := List.mem_reverse.mpr hc
    rw [List.mem_reverse]
    have h2 : List.takeWhile isSpaceChar s.reverse ++
        List.dropWhile isSpaceChar s.reverse = s.reverse :=
      List.takeWhile_append_dropWhile isSpaceChar s.reverse
    rw [← h2] at h1
    rcases List.mem_append.mp h1 with h3 | h3
    · exact absurd (List.mem_takeWhile_imp h3) (by simp [hns])
    · exact h3
  exact absurd (hall c hcr) (by simp [hns])

/-- What a successful case-insensitive chomp says about the string. -/
theorem chompCI_eq {w : String} {s r : Str} (h : chompCI w s = some r) :
    (toLowerStr s).take w.toList.length = w.toList ∧ r = s.drop w.toList.length := by
  simp only [chompCI] at h
  split at h
  case isTrue hc =>
    refine ⟨?_, (Option.some.inj h).symm⟩
    simp only [toLowerStr] at hc ⊢
    rw [← List.map_take]
    exact hc
  case isFalse hc => exact absurd h (by simp)

/-- Two case-insensitive chomps cannot both succeed at the same position
when neither keyword's lowercase form is a prefix of the other's. -/
theorem chompCI_conflict {w₁ w₂ : String} {s r₁ r₂ : Str}
    (h₁ : chompCI w₁ s = some r₁) (h₂ : chompCI w₂ s = some r₂)
    (hlen : w₁.toList.length ≤ w₂.toList.length)
    (hpre : w₂.toList.take w₁.toList.length ≠ w₁.toList) : False := by
  obtain ⟨hp₁, _⟩ := chompCI_eq h₁
  obtain ⟨hp₂, _⟩ := chompCI_eq h₂
  apply hpre
  rw [← hp₂, List.take_take, min_eq_left hlen, hp₁]

/-- What a successful `\b\s+` step says about the string. -/
theorem spaced_eq {r r2 : Str} (h : spaced r = some r2) :
    r2 = trimLeft r ∧ ∃ c t, r = c :: t ∧ isSpaceChar c = true := by
  cases r with
  | nil => simp [spaced] at h
  | cons c t =>
      simp only [spaced] at h
      by_cases hc : isSpaceChar c = true
      · rw [if_pos hc] at h
        refine ⟨?_, c, t, rfl, hc⟩
        rw [← Option.some.inj h]
        simp [trimLeft, List.dropWhile_cons_of_pos hc]
      · rw [if_neg hc] at h
        exact absurd h (by simp)

/-- Structure of a successful two-word block test. -/
theorem twoWordTest_chomp {w1 w2 : String} {s : Str}
    (h : twoWordTest w1 w2 s = true) :
    ∃ r, chompCI w1 (trimLeft s) = some r ∧
      ∃ r2, chompCI w2 (trimLeft r) = some r2 := by
  unfold twoWordTest at h
  rcases h1 : chompCI w1 (trimLeft s) with _ | r
  · simp only [h1] at h
    exact absurd h (by simp)
  · simp only [h1] at h
    rcases h2 : spaced r with _ | rr
    · simp only [h2] at h
      exact absurd h (by simp)
    · simp only [h2] at h
      rcases h3 : chompCI w2 rr with _ | r3
      · simp only [h3] at h
        exact absurd h (by simp)
      · obtain ⟨hrr, _⟩ := spaced_eq h2
        exact ⟨r, rfl, r3, by rw [← hrr]; exact h3⟩

/-- Structure of a successful three-word block test (first two words). -/
theorem threeWordTest_chomp {w1 w2 w3 : String} {s : Str}
    (h : threeWordTest w1 w2 w3 s = true) :
    ∃ r, chompCI w1 (trimLeft s) = some r ∧
      ∃ r2, chompCI w2 (trimLeft r) = some r2 := by
  unfold threeWordTest at h
  rcases h1 : chompCI w1 (trimLeft s) with _ | r
  · simp only [h1] at h
    exact absurd h (by simp)
  · simp only [h1] at h
    rcases h2 : spaced r with _ | rr
    · simp only [h2] at h
      exact absurd h (by simp)
    · simp only [h2] at h
      rcases h3 : chompCI w2 rr with _ | r3
      · simp only [h3] at h
        exact absurd h (by simp)
      · obtain ⟨hrr, _⟩ := spaced_eq h2
        exact ⟨r, rfl, r3, by rw [← hrr]; exact h3⟩

/-- Structure of a successful `End If` test. -/
theorem endIfTest_chomp {s : Str} (h : endIfTest s = true) :
    ∃ r, chompCI "end" (trimLeft s) = some r ∧
      ∃ r2, chompCI "if" (trimLeft r) = some r2 := by
  unfold endIfTest at h
  rcases h1 : chompCI "end" (trimLeft s) with _ | r
  · simp only [h1] at h
    exact absurd h (by simp)
  · simp only [h1] at h
    rcases h3 : chompCI "if" (trimLeft r) with _ | r3
    · simp only [h3] at h
      exact absurd h (by simp)
    · exact ⟨r, rfl, r3, h3⟩

/-- Structure of a successful `If ... ==` opener test. -/
theorem ifStmtTest_chomp {s : Str} (h : ifStmtTest s = true) :
    ∃ r, chompCI "if" (trimLeft s) = some r := by
  unfold ifStmtTest at h
  rcases h1 : chompCI "if" (trimLeft s) with _ | r
  · simp only [h1] at h
    exact absurd h (by simp)
  · exact ⟨r, rfl⟩

/-- Structure of a successful `Else If` test. -/
theorem elseIfTest_chomp {s : Str} (h : elseIfTest s = true) :
    ∃ r, chompCI "else" (trimLeft s) = some r := by
  unfold elseIfTest at h
  rcases h1 : chompCI "else" (trimLeft s) with _ | r
  · simp only [h1] at h
    exact absurd h (by simp)
  · exact ⟨r, rfl⟩

/-- A successful chomp of a nonempty keyword on the trimmed line means the
line does not trim to the empty string. -/
theorem trimStr_ne_nil_of_chomp (w : String) {s r : Str}
    (hw : w.toList ≠ []) (h : chompCI w (trimLeft s) = some r) :
    trimStr s ≠ [] := by
  obtain ⟨hp, _⟩ := chompCI_eq h
  rcases hs : trimLeft s with _ | ⟨c, t⟩
  · rw [hs] at hp
    simp only [toLowerStr, List.map_nil, List.take_nil] at hp
    exact absurd hp.symm hw
  · have hcmem : c ∈ s := by
      have : c ∈ trimLeft s := by rw [hs]; exact List.mem_cons_self c t
      have hsub : (List.dropWhile isSpaceChar s).Sublist s := List.dropWhile_sublist isSpaceChar
      exact List.Sublist.subset hsub this
    exact trimStr_ne_nil hcmem (dropWhile_head_not isSpaceChar s c t hs)

/-- Two keyword chomps at the same position conflict when neither keyword
is a lowercase prefix of the other (symmetric wrapper). -/
theorem conflict_of_first {wA wB : String} {s rA rB : Str}
    (hA : chompCI wA s = some rA) (hB : chompCI wB s = some rB)
    (h : (wA.toList.length ≤ wB.toList.length ∧
            wB.toList.take wA.toList.length ≠ wA.toList) ∨
         (wB.toList.length ≤ wA.toList.length ∧
            wA.toList.take wB.toList.length ≠ wB.toList)) : False := by
  rcases h with ⟨h1, h2⟩ | ⟨h1, h2⟩
  · exact chompCI_conflict hA hB h1 h2
  · exact chompCI_conflict hB hA h1 h2

/-- The four `End ...` closer tests fail on a line whose first word chomps
as `w` when `w` conflicts with `end`; stated for the concrete openers. -/
theorem endTests_false_of_first {s r : Str} {w : String}
    (h : chompCI w (trimLeft s) = some r)
    (hc : (w.toList.length ≤ 3 ∧ (chars "end").take w.toList.length ≠ w.toList) ∨
          (3 ≤ w.toList.length ∧ w.toList.take 3 ≠ chars "end")) :
    endIfTest s = false ∧ endDefineTest s = false ∧
      end1dTest s = false ∧ end2dTest s = false := by
  refine ⟨?_, ?_, ?_, ?_⟩ <;> by_contra hx <;> rw [Bool.not_eq_false] at hx
  · obtain ⟨r', h1', _⟩ := endIfTest_chomp hx
    exact conflict_of_first h h1' hc
  · obtain ⟨r', h1', _⟩ := twoWordTest_chomp (show twoWordTest "end" "define" s = true from hx)
    exact conflict_of_first h h1' hc
  · obtain ⟨r', h1', _⟩ := threeWordTest_chomp (show threeWordTest "end" "1d" "domain" s = true from hx)
    exact conflict_of_first h h1' hc
  · obtain ⟨r', h1', _⟩ := threeWordTest_chomp (show threeWordTest "end" "2d" "domain" s = true from hx)
    exact conflict_of_first h h1' hc

/-- `Else If` fails on a line whose first word chomps as `w` when `w`
conflicts with `else`. -/
theorem elseIfTest_false_of_first {s r : Str} {w : String}
    (h : chompCI w (trimLeft s) = some r)
    (hc : (w.toList.length ≤ 4 ∧ (chars "else").take w.toList.length ≠ w.toList) ∨
          (4 ≤ w.toList.length ∧ w.toList.take 4 ≠ chars "else")) :
    elseIfTest s = false := by
  by_contra hx
  rw [Bool.not_eq_false] at hx
  obtain ⟨r', h1'⟩ := elseIfTest_chomp hx
  exact conflict_of_first h h1' hc

/-- `If ... ==` fails on a line whose first word chomps as `w` when `w`
conflicts with `if`. -/
theorem ifStmtTest_false_of_first {s r : Str} {w : String}
    (h : chompCI w (trimLeft s) = some r)
    (hc : (w.toList.length ≤ 2 ∧ (chars "if").take w.toList.length ≠ w.toList) ∨
          (2 ≤ w.toList.length ∧ w.toList.take 2 ≠ chars "if")) :
    ifStmtTest s = false := by
  by_contra hx
  rw [Bool.not_eq_false] at hx
  obtain ⟨r', h1'⟩ := ifStmtTest_chomp hx
  exact conflict_of_first h h1' hc

/-- `Define Event` fails on a line whose first word chomps as `w` when `w`
conflicts with `define`. -/
theorem defineEventTest_false_of_first {s r : Str} {w : String}
    (h : chompCI w (trimLeft s) = some r)
    (hc : (w.toList.length ≤ 6 ∧ (chars "define").take w.toList.length ≠ w.toList) ∨
          (6 ≤ w.toList.length ∧ w.toList.take 6 ≠ chars "define")) :
    defineEventTest s = false := by
  by_contra hx
  rw [Bool.not_eq_false] at hx
  obtain ⟨r', h1', _⟩ := twoWordTest_chomp (show twoWordTest "define" "event" s = true from hx)
  exact conflict_of_first h h1' hc

/-- An `End If` line dispatches to `popBlock` with the `if` kind. -/
theorem update_endIf {line : Str} {i : Nat} {stack : List BlockEntry}
    (h : endIfTest (lineContentOf line) = true) :
    updateBlockStack line i stack = popBlock stack .ifBlock := by
  obtain ⟨r, h1, _⟩ := endIfTest_chomp h
  have htrim := trimStr_ne_nil_of_chomp "end" (by decide) h1
  simp only [updateBlockStack]
  rw [if_neg htrim, if_pos h]

/-- An `End Define` line dispatches to `popBlock` with the `define-event`
kind. -/
theorem update_endDefine {line : Str} {i : Nat} {stack : List BlockEntry}
    (h : endDefineTest (lineContentOf line) = true) :
    updateBlockStack line i stack = popBlock stack .defineEvent := by
  obtain ⟨r, h1, r2, h2⟩ :=
    twoWordTest_chomp (show twoWordTest "end" "define" (lineContentOf line) = true from h)
  have htrim := trimStr_ne_nil_of_chomp "end" (by decide) h1
  have hEndIf : endIfTest (lineContentOf line) = false := by
    by_contra hy
    rw [Bool.not_eq_false] at hy
    obtain ⟨r', h1', r2', h2'⟩ := endIfTest_chomp hy
    rw [h1] at h1'
    obtain rfl := Option.some.inj h1'
    exact conflict_of_first h2 h2' (by decide)
  simp only [updateBlockStack]
  rw [if_neg htrim, if_neg (by simp [hEndIf]), if_pos h]

/-- An `End 1D Domain` line dispatches to `popBlock` with the `1d` kind. -/
theorem update_end1d {line : Str} {i : Nat} {stack : List BlockEntry}
    (h : end1dTest (lineContentOf line) = true) :
    updateBlockStack line i stack = popBlock stack .start1dDomain := by
  obtain ⟨r, h1, r2, h2⟩ :=
    threeWordTest_chomp (show threeWordTest "end" "1d" "domain" (lineContentOf line) = true from h)
  have htrim := trimStr_ne_nil_of_chomp "end" (by decide) h1
  have hEndIf : endIfTest (lineContentOf line) = false := by
    by_contra hy
    rw [Bool.not_eq_false] at hy
    obtain ⟨r', h1', r2', h2'⟩ := endIfTest_chomp hy
    rw [h1] at h1'
    obtain rfl := Option.some.inj h1'
    exact conflict_of_first h2 h2' (by decide)
  have hEndDef : endDefineTest (lineContentOf line) = false := by
    by_contra hy
    rw [Bool.not_eq_false] at hy
    obtain ⟨r', h1', r2', h2'⟩ :=
      twoWordTest_chomp (show twoWordTest "end" "define" (lineContentOf line) = true from hy)
    rw [h1] at h1'
    obtain rfl := Option.some.inj h1'
    exact conflict_of_first h2 h2' (by decide)
  simp only [updateBlockStack]
  rw [if_neg htrim, if_neg (by simp [hEndIf]), if_neg (by simp [hEndDef]), if_pos h]

/-- An `End 2D Domain` line dispatches to `popBlock` with the `2d` kind. -/
theorem update_end2d {line : Str} {i : Nat} {stack : List BlockEntry}
    (h : end2dTest (lineContentOf line) = true) :
    updateBlockStack line i stack = popBlock stack .start2dDomain := by
  obtain ⟨r, h1, r2, h2⟩ :=
    threeWordTest_chomp (show threeWordTest "end" "2d" "domain" (lineContentOf line) = true from h)
  have htrim := trimStr_ne_nil_of_chomp "end" (by decide) h1
  have hEndIf : endIfTest (lineContentOf line) = false := by
    by_contra hy
    rw [Bool.not_eq_false] at hy
    obtain ⟨r', h1', r2', h2'⟩ := endIfTest_chomp hy
    rw [h1] at h1'
    obtain rfl := Option.some.inj h1'
    exact conflict_of_first h2 h2' (by decide)
  have hEndDef : endDefineTest (lineContentOf line) = false := by
    by_contra hy
    rw [Bool.not_eq_false] at hy
    obtain ⟨r', h1', r2', h2'⟩ :=
      twoWordTest_chomp (show twoWordTest "end" "define" (lineContentOf line) = true from hy)
    rw [h1] at h1'
    obtain rfl := Option.some.inj h1'
    exact conflict_of_first h2 h2' (by decide)
  have hEnd1d : end1dTest (lineContentOf line) = false := by
    by_contra hy
    rw [Bool.not_eq_false] at hy
    obtain ⟨r', h1', r2', h2'⟩ :=
      threeWordTest_chomp (show threeWordTest "end" "1d" "domain" (lineContentOf line) = true from hy)
    rw [h1] at h1'
    obtain rfl := Option.some.inj h1'
    exact conflict_of_first h2 h2' (by decide)
  simp only [updateBlockStack]
  rw [if_neg htrim, if_neg (by simp [hEndIf]), if_neg (by simp [hEndDef]),
    if_neg (by simp [hEnd1d]), if_pos h]

/-- An `If Event/Scenario ==` opener line pushes the `if` entry. -/
theorem update_ifOpen {line : Str} {i : Nat} {stack : List BlockEntry}
    (h : ifStmtTest (lineContentOf line) = true) :
    updateBlockStack line i stack =
      stack ++ [{ kind := .ifBlock,
                  range := ⟨i, startCharOf line, i, startCharOf line + 2⟩,
                  message := chars "If statement is missing a closing End If." }] := by
  obtain ⟨r, h1⟩ := ifStmtTest_chomp h
  have htrim := trimStr_ne_nil_of_chomp "if" (by decide) h1
  obtain ⟨hEndIf, hEndDef, hEnd1d, hEnd2d⟩ := endTests_false_of_first h1 (by decide)
  have hElse := elseIfTest_false_of_first h1 (by decide)
  simp only [updateBlockStack]
  rw [if_neg htrim, if_neg (by simp [hEndIf]), if_neg (by simp [hEndDef]),
    if_neg (by simp [hEnd1d]), if_neg (by simp [hEnd2d]), if_neg (by simp [hElse]),
    if_pos h]

/-- A `Define Event` opener line pushes the `define-event` entry. -/
theorem update_defineOpen {line : Str} {i : Nat} {stack : List BlockEntry}
    (h : defineEventTest (lineContentOf line) = true) :
    updateBlockStack line i stack =
      stack ++ [{ kind := .defineEvent,
                  range := ⟨i, startCharOf line, i, startCharOf line + 6⟩,
                  message := chars "Define Event statement is missing a closing End Define." }] := by
  obtain ⟨r, h1, _⟩ :=
    twoWordTest_chomp (show twoWordTest "define" "event" (lineContentOf line) = true from h)
  have htrim := trimStr_ne_nil_of_chomp "define" (by decide) h1
  obtain ⟨hEndIf, hEndDef, hEnd1d, hEnd2d⟩ := endTests_false_of_first h1 (by decide)
  have hElse := elseIfTest_false_of_first h1 (by decide)
  have hIf := ifStmtTest_false_of_first h1 (by decide)
  simp only [updateBlockStack]
  rw [if_neg htrim, if_neg (by simp [hEndIf]), if_neg (by simp [hEndDef]),
    if_neg (by simp [hEnd1d]), if_neg (by simp [hEnd2d]), if_neg (by simp [hElse]),
    if_neg (by simp [hIf]), if_pos h]

/-- A `Start 1D Domain` opener line pushes the `1d` entry. -/
theorem update_start1dOpen {line : Str} {i : Nat} {stack : List BlockEntry}
    (h : start1dTest (lineContentOf line) = true) :
    updateBlockStack line i stack =
      stack ++ [{ kind := .start1dDomain,
                  range := ⟨i, startCharOf line, i, startCharOf line + 5⟩,
                  message := chars "Start 1D Domain statement is missing a closing End 1D Domain." }] := by
  obtain ⟨r, h1, r2, h2⟩ :=
    threeWordTest_chomp (show threeWordTest "start" "1d" "domain" (lineContentOf line) = true from h)
  have htrim := trimStr_ne_nil_of_chomp "start" (by decide) h1
  obtain ⟨hEndIf, hEndDef, hEnd1d, hEnd2d⟩ := endTests_false_of_first h1 (by decide)
  have hElse := elseIfTest_false_of_first h1 (by decide)
  have hIf := ifStmtTest_false_of_first h1 (by decide)
  have hDef := defineEventTest_false_of_first h1 (by decide)
  simp only [updateBlockStack]
  rw [if_neg htrim, if_neg (by simp [hEndIf]), if_neg (by simp [hEndDef]),
    if_neg (by simp [hEnd1d]), if_neg (by simp [hEnd2d]), if_neg (by simp [hElse]),
    if_neg (by simp [hIf]), if_neg (by simp [hDef]), if_pos h]

/-- A `Start 2D Domain` opener line pushes the `2d` entry. -/
theorem update_start2dOpen {line : Str} {i : Nat} {stack : List BlockEntry}
    (h : start2dTest (lineContentOf line) = true) :
    updateBlockStack line i stack =
      stack ++ [{ kind := .start2dDomain,
                  range := ⟨i, startCharOf line, i, startCharOf line + 5⟩,
                  message := chars "Start 2D Domain statement is missing a closing End 2D Domain." }] := by
  obtain ⟨r, h1, r2, h2⟩ :=
    threeWordTest_chomp (show threeWordTest "start" "2d" "domain" (lineContentOf line) = true from h)
  have htrim := trimStr_ne_nil_of_chomp "start" (by decide) h1
  obtain ⟨hEndIf, hEndDef, hEnd1d, hEnd2d⟩ := endTests_false_of_first h1 (by decide)
  have hElse := elseIfTest_false_of_first h1 (by decide)
  have hIf := ifStmtTest_false_of_first h1 (by decide)
  have hDef := defineEventTest_false_of_first h1 (by decide)
  have hS1 : start1dTest (lineContentOf line) = false := by
    by_contra hy
    rw [Bool.not_eq_false] at hy
    obtain ⟨r', h1', r2', h2'⟩ :=
      threeWordTest_chomp (show threeWordTest "start" "1d" "domain" (lineContentOf line) = true from hy)
    rw [h1] at h1'
    obtain rfl := Option.some.inj h1'
    exact conflict_of_first h2 h2' (by decide)
  simp only [updateBlockStack]
  rw [if_neg htrim, if_neg (by simp [hEndIf]), if_neg (by simp [hEndDef]),
    if_neg (by simp [hEnd1d]), if_neg (by simp [hEnd2d]), if_neg (by simp [hElse]),
    if_neg (by simp [hIf]), if_neg (by simp [hDef]), if_neg (by simp [hS1]), if_pos h]

/-- A closer whose kind differs from the stack top (or arrives on an empty
stack) leaves the stack unchanged. -/
theorem popBlock_mismatch (stack : List BlockEntry) (kind : BlockKind)
    (h : ∀ top ∈ stack.getLast?, top.kind ≠ kind) :
    popBlock stack kind = stack := by
  unfold popBlock
  rcases hl : stack.getLast? with _ | top
  · rfl
  · simp only []
    rw [if_neg]
    exact h top (by rw [hl]; rfl)

/-- C7: with block checks enabled, a closer whose kind differs from the top
stack entry is ignored (it neither pops nor errors); every opener pushes
one entry anchored at the opener's line and first non-whitespace column
whose message names the specific missing closer, and that entry becomes
exactly one Error at end-of-file when unmatched; in particular a lone
`If Scenario == DEV` line yields exactly one Error
"If statement is missing a closing End If." anchored at line 0, columns
0-2. -/
theorem claim_C7 :
    (∀ (line : Str) (i : Nat) (stack : List BlockEntry),
      (endIfTest (lineContentOf line) = true →
        (∀ top ∈ stack.getLast?, top.kind ≠ BlockKind.ifBlock) →
        updateBlockStack line i stack = stack) ∧
      (endDefineTest (lineContentOf line) = true →
        (∀ top ∈ stack.getLast?, top.kind ≠ BlockKind.defineEvent) →
        updateBlockStack line i stack = stack) ∧
      (end1dTest (lineContentOf line) = true →
        (∀ top ∈ stack.getLast?, top.kind ≠ BlockKind.start1dDomain) →
        updateBlockStack line i stack = stack) ∧
      (end2dTest (lineContentOf line) = true →
        (∀ top ∈ stack.getLast?, top.kind ≠ BlockKind.start2dDomain) →
        updateBlockStack line i stack = stack)) ∧
    (∀ (line : Str) (i : Nat) (stack : List BlockEntry),
      (ifStmtTest (lineContentOf line) = true →
        updateBlockStack line i stack =
          stack ++ [{ kind := .ifBlock,
                      range := ⟨i, startCharOf line, i, startCharOf line + 2⟩,
                      message := chars "If statement is missing a closing End If." }]) ∧
      (defineEventTest (lineContentOf line) = true →
        updateBlockStack line i stack =
          stack ++ [{ kind := .defineEvent,
                      range := ⟨i, startCharOf line, i, startCharOf line + 6⟩,
                      message := chars "Define Event statement is missing a closing End Define." }]) ∧
      (start1dTest (lineContentOf line) = true →
        updateBlockStack line i stack =
          stack ++ [{ kind := .start1dDomain,
                      range := ⟨i, startCharOf line, i, startCharOf line + 5⟩,
                      message := chars "Start 1D Domain statement is missing a closing End 1D Domain." }]) ∧
      (start2dTest (lineContentOf line) = true →
        updateBlockStack line i stack =
          stack ++ [{ kind := .start2dDomain,
                      range := ⟨i, startCharOf line, i, startCharOf line + 5⟩,
                      message := chars "Start 2D Domain statement is missing a closing End 2D Domain." }])) ∧
    analyzeFile 2 envIfScen ctxEmpty (chars "/w/r.tcf") (chars "If Scenario == DEV") [] =
      ([ifOpenErr], [(chars "/w/r.tcf", [ifOpenErr])]) := by
  refine ⟨fun line i stack => ⟨?_, ?_, ?_, ?_⟩,
    fun line i stack => ⟨fun h => update_ifOpen h, fun h => update_defineOpen h,
      fun h => update_start1dOpen h, fun h => update_start2dOpen h⟩,
    by decide⟩
  · intro h hm
    rw [update_endIf h]
    exact popBlock_mismatch _ _ hm
  · intro h hm
    rw [update_endDefine h]
    exact popBlock_mismatch _ _ hm
  · intro h hm
    rw [update_end1d h]
    exact popBlock_mismatch _ _ hm
  · intro h hm
    rw [update_end2d h]
    exact popBlock_mismatch _ _ hm

/-- Witness for C7: a dangling `End If` above a `Define Event` block entry
is ignored, and a concrete `If Scenario` opener pushes its entry. -/
theorem claim_C7_witness :
    updateBlockStack (chars " End If") 3
        [{ kind := .defineEvent, range := ⟨0, 0, 0, 6⟩,
           message := chars "Define Event statement is missing a closing End Define." }] =
      [{ kind := .defineEvent, range := ⟨0, 0, 0, 6⟩,
         message := chars "Define Event statement is missing a closing End Define." }] ∧
    updateBlockStack (chars "  If Event == Q100") 7 [] =
      [{ kind := BlockKind.ifBlock, range := ⟨7, 2, 7, 4⟩,
         message := chars "If statement is missing a closing End If." }] := by
  constructor
  · refine (claim_C7.1 (chars " End If") 3 _).1 (by decide) ?_
    intro top ht
    simp only [List.getLast?] at ht
    rw [Option.mem_def] at ht
    cases Option.some.inj ht
    decide
  · have h := (claim_C7.2.1 (chars "  If Event == Q100") 7 []).1 (by decide)
    rw [h]
    decide

/-- C10: a path candidate whose (trimmed) text still contains `<<` or `>>`
— even a stray `<<` without a closing `>>` — is skipped entirely and
silently: the candidate loop moves to the next candidate with no
File-not-found diagnostic, no latest-version check, and no recursion. -/
theorem claim_C10 (child : ChildFun) (env : Env) (fc : FileCtx)
    (cand : Candidate) (rest : List Candidate) (d : List Diagnostic)
    (v : Visited) (h : containsUnresolvedToken cand.text = true) :
    processCandidates child env fc (cand :: rest) d v =
      processCandidates child env fc rest d v := by
  simp only [processCandidates]
  rw [if_pos]
  right
  exact h

/-- Witness for C10: a candidate with a stray `<<` and no closing `>>` is
skipped with the state unchanged. -/
theorem claim_C10_witness :
    processCandidates childNone envEmpty fcR
        [{ text := chars "<<OutRoot/x.shp", range := ⟨0, 12, 0, 27⟩ }] [] [] =
      ([], []) := by
  rw [claim_C10 childNone envEmpty fcR _ [] [] [] (by decide)]
  decide

/-- C2: a file-level ignore directive (`! tpf-ignore-file` comment)
anywhere in a freshly analyzed document makes the analysis of that
document return the empty diagnostic list, discarding diagnostics
recorded from earlier lines, memoize `[]` for the file, and re-running the
analysis on the resulting state returns the empty list again. -/
theorem claim_C2 (env : Env) (ctx : LatestCheckContext) (p contents : Str)
    (v : Visited) (n : Nat)
    (hv : vlookup v (posixNormalize p) = none)
    (hig : ∃ l ∈ splitLines contents, isFileIgnoreLine l = true) :
    (analyzeFile (n + 1) env ctx p contents v).1 = [] ∧
      vlookup (analyzeFile (n + 1) env ctx p contents v).2 (posixNormalize p) = some [] ∧
      ∀ m, analyzeFile m env ctx p contents (analyzeFile (n + 1) env ctx p contents v).2 =
        ([], (analyzeFile (n + 1) env ctx p contents v).2) := by
  obtain ⟨v2, hv2⟩ := pl_ignored
    (fun p c w => analyzeFile n env ctx p c w) env
    { np := posixNormalize p, docDir := dirname (posixNormalize p),
      isTcf := toLowerStr (extname (posixNormalize p)) = chars ".tcf",
      checkLatest := (shouldCheckLatestReferencedVersions env ctx (posixNormalize p)).1 }
    (splitLines contents) 0
    (shouldCheckLatestReferencedVersions env ctx (posixNormalize p)).2 []
    (vset v (posixNormalize p) []) hig
  have hres : analyzeFile (n + 1) env ctx p contents v =
      ([], vset v2 (posixNormalize p) []) := by
    simp only [analyzeFile, hv]
    rw [hv2]
  refine ⟨by rw [hres], by rw [hres]; exact vlookup_vset_self _ _ _, ?_⟩
  intro m
  rw [hres]
  exact analyzeFile_memo m env ctx p contents _ _ (vlookup_vset_self _ _ _)

/-- Witness for C2: a document with a missing reference, then the ignore
directive, then another missing reference analyzes to the empty list and
stays empty on re-analysis. -/
theorem claim_C2_witness :
    (analyzeFile 2 envIgnore ctxEmpty (chars "/w/r.tcf")
        (chars "Read GIS == missing/bc.shp\n! tpf-ignore-file\nRead GIS == also/gone.shp")
        []).1 = [] ∧
      vlookup (analyzeFile 2 envIgnore ctxEmpty (chars "/w/r.tcf")
        (chars "Read GIS == missing/bc.shp\n! tpf-ignore-file\nRead GIS == also/gone.shp")
        []).2 (posixNormalize (chars "/w/r.tcf")) = some [] := by
  have h := claim_C2 envIgnore ctxEmpty (chars "/w/r.tcf")
    (chars "Read GIS == missing/bc.shp\n! tpf-ignore-file\nRead GIS == also/gone.shp")
    [] 1 (by decide)
    ⟨chars "! tpf-ignore-file", by decide, by decide⟩
  exact ⟨h.1, h.2.1⟩

/-- Counterexample for C8: on the single line
`If Scenario == DEV ! tpf-ignore` the line-level ignore directive is
present, yet analysis still produces a diagnostic whose range starts on
that very line (the unmatched-`If` Error from the block check, recorded by
`updateBlockStack` before the ignore directive is consulted), so the ignore
directive does not suppress every diagnostic anchored on its line. -/
theorem claim_C8_cex :
    lineInlineIgnored (chars "If Scenario == DEV ! tpf-ignore") = true ∧
      (analyzeFile 2 envInline ctxEmpty (chars "/w/r.tcf")
          (chars "If Scenario == DEV ! tpf-ignore") []).1 = [ifOpenErr] ∧
      ifOpenErr.range.startLine = 0 := by
  refine ⟨by decide, by decide, rfl⟩

/-- C8 (amended): a line-level ignore directive suppresses exactly the
file-lookup, latest-version and scenario/version-token diagnostics of its
line — the line contributes no diagnostics, no visited-map changes and no
recursion, and later lines are processed from an unchanged state — but the
block-stack update for the line still happens, so block-structure Errors
(anchored at an opener on the ignored line) are not suppressed. -/
theorem claim_C8 (child : ChildFun) (env : Env) (fc : FileCtx)
    (text : Str) (rest : List Str) (i : Nat) (d : List Diagnostic)
    (stack : List BlockEntry) (v : Visited)
    (h : lineInlineIgnored text = true) :
    processLines child env fc (text :: rest) i d stack v =
      processLines child env fc rest (i + 1) d
        (if env.ifChecksEnabled then updateBlockStack text i stack else stack) v :=
  pl_inline child env fc text rest i d stack v h

/-- Witness for C8: the ignored line `Read GIS == gone.shp ! tpf-ignore`
is skipped without diagnostics (and, carrying no block keyword, without
stack changes). -/
theorem claim_C8_witness :
    processLines childNone envEmpty fcR
        [chars "Read GIS == gone.shp ! tpf-ignore"] 0 [] [] [] =
      .done [] [] [] := by
  rw [claim_C8 childNone envEmpty fcR _ [] 0 [] [] [] (by decide)]
  decide

/-- C5: with `geom_v01.shp` and `geom_v02.shp` in the same directory, a
resolved reference to `geom_v01.shp` (from a control file that passes the
latest-scope test, here a versionless `.tcf`) produces exactly one Warning
whose message contains "not the latest version" and "(found 1, latest 2)",
while a reference to `geom_v02.shp` produces no version diagnostic. -/
theorem claim_C5 :
    (∀ r : Range,
      checkReferencedFileLatestVersion envStale (chars "/m/geom_v01.shp") r =
        [{ range := r, message := notLatestMsg (chars "/m/geom_v01.shp") 1 2,
           severity := .warning }]) ∧
    (∀ r : Range,
      checkReferencedFileLatestVersion envStale (chars "/m/geom_v02.shp") r = []) ∧
    containsStr (chars "not the latest version")
      (notLatestMsg (chars "/m/geom_v01.shp") 1 2) = true ∧
    containsStr (chars "(found 1, latest 2)")
      (notLatestMsg (chars "/m/geom_v01.shp") 1 2) = true ∧
    (analyzeFile 4 envStale ctxEmpty (chars "/m/root.tcf")
        (chars "Read GIS == geom_v01.shp") []).1 =
      [{ range := ⟨0, 12, 0, 24⟩,
         message := notLatestMsg (chars "/m/geom_v01.shp") 1 2,
         severity := .warning }] ∧
    (analyzeFile 4 envStale2 ctxEmpty (chars "/m/root.tcf")
        (chars "Read GIS == geom_v02.shp") []).1 = [] := by
  refine ⟨?_, ?_, by decide, by decide, by decide, by decide⟩
  · intro r
    have hst : getLatestVersionStatus envStale (chars "/m/geom_v01.shp") none =
        { status := .notLatest, currentVersion := some 1, latestVersion := some 2 } := by
      decide
    have hen : envStale.latestEnabled = true := rfl
    simp [checkReferencedFileLatestVersion, hen, hst]
  · intro r
    have hst : getLatestVersionStatus envStale (chars "/m/geom_v02.shp") none =
        { status := .latest, currentVersion := some 2, latestVersion := some 2 } := by
      decide
    have hen : envStale.latestEnabled = true := rfl
    simp [checkReferencedFileLatestVersion, hen, hst]

/-- A non-`~` head passes through the token-stripping scan unchanged. -/
theorem strip_cons_ne {c : Char} (xs : Str) (hc : c ≠ '~') :
    stripScenarioEventTokens (c :: xs) = c :: stripScenarioEventTokens xs := by
  rw [stripScenarioEventTokens.eq_def]
  split
  · simp_all
  · rename_i c2 d rest heq
    exact absurd (List.cons.inj heq).1 hc
  · rename_i c2 rest heq
    obtain ⟨h1, h2⟩ := List.cons.inj heq
    rw [← h1, ← h2]

/-- A complete scenario/event token at the head of the scan is removed. -/
theorem strip_token_head {c d : Char} (b : Str)
    (hc : isScenChar c = true) (hd : isDigit19 d = true) :
    stripScenarioEventTokens ('~' :: c :: d :: '~' :: b) =
      stripScenarioEventTokens b := by
  rw [stripScenarioEventTokens.eq_def]
  simp only []
  rw [if_pos]
  constructor <;> simp [hc, hd]

/-- Inserting a complete scenario/event token after a `~`-free prefix does
not change the stripped name. -/
theorem strip_insert {t : Str} (a b : Str)
    (ht : isScenarioEventToken t = true) (ha : '~' ∉ a) :
    stripScenarioEventTokens (a ++ t ++ b) = stripScenarioEventTokens (a ++ b) := by
  induction a with
  | nil =>
      unfold isScenarioEventToken at ht
      split at ht
      · rename_i cc dd
        rw [decide_eq_true_eq] at ht
        simp only [List.nil_append, List.cons_append]
        exact strip_token_head b ht.1 ht.2
      · simp at ht
  | cons c a ih =>
      have hc : c ≠ '~' := by
        intro hcon
        exact ha (hcon ▸ List.mem_cons_self c a)
      have ha2 : '~' ∉ a := fun hmem => ha (List.mem_cons_of_mem c hmem)
      simp only [List.cons_append]
      rw [strip_cons_ne _ hc, strip_cons_ne _ hc, ih ha2]

/-- Counterexample for C6: appending the scenario/event token `~e1~` to the
base name `geom~s2` changes both the series key and the version.  The
token's leading `~` completes a `~s2~` token with the pre-existing `~s2`
suffix, so the single-pass strip removes different text: `geom~s2` cleans
to itself (key `geom~s#`, version 2) while `geom~s2~e1~` cleans to
`geome1~` (key `geome#~`, version 1).  Both names have exactly one
qualifying numeric run, so the claim's insertion-invariance fails. -/
theorem claim_C6_cex :
    isScenarioEventToken (chars "~e1~") = true ∧
      chars "geom~s2~e1~" = chars "geom~s2" ++ chars "~e1~" ∧
      versionSeriesOf (chars "geom~s2") = some (chars "geom~s#", 2) ∧
      versionSeriesOf (chars "geom~s2~e1~") = some (chars "geome#~", 1) := by
  decide

/-- C6 (amended): the series key and version depend only on the
token-stripped name — two filenames with equal stripped forms are assigned
the same series key and version — and inserting or removing a complete
scenario/event token leaves key and version unchanged provided the text
before the insertion point contains no `~` (without that proviso the token
can overlap neighbouring `~` characters, as the counterexample shows). -/
theorem claim_C6 :
    (∀ n₁ n₂ : Str, stripScenarioEventTokens n₁ = stripScenarioEventTokens n₂ →
      versionSeriesOf n₁ = versionSeriesOf n₂) ∧
    (∀ a t b : Str, isScenarioEventToken t = true → '~' ∉ a →
      versionSeriesOf (a ++ t ++ b) = versionSeriesOf (a ++ b)) := by
  have base : ∀ n₁ n₂ : Str,
      stripScenarioEventTokens n₁ = stripScenarioEventTokens n₂ →
      versionSeriesOf n₁ = versionSeriesOf n₂ := by
    intro n₁ n₂ h
    unfold versionSeriesOf
    rw [h]
  exact ⟨base, fun a t b ht ha => base _ _ (strip_insert a b ht ha)⟩

/-- Witness for C6: inserting `~s1~` into `geom_v01` (a `~`-free name)
leaves the series key and version unchanged. -/
theorem claim_C6_witness :
    versionSeriesOf (chars "geom_v" ++ chars "~s1~" ++ chars "01") =
      versionSeriesOf (chars "geom_v" ++ chars "01") := by
  exact claim_C6.2 (chars "geom_v") (chars "~s1~") (chars "01") (by decide) (by decide)

/-- One candidate step never lowers the tracked maximum version. -/
theorem latestFoldStep_ge (ext pat : Str) (acc : Nat) (e : Str) :
    acc ≤ latestFoldStep ext pat acc e := by
  unfold latestFoldStep
  split
  · exact le_refl acc
  · simp only []
    split
    · split
      · exact le_refl acc
      · split
        · omega
        · exact le_refl acc
    · exact le_refl acc

/-- The candidate fold never drops below its starting version. -/
theorem foldl_latest_ge (ext pat : Str) :
    ∀ (S : List Str) (acc : Nat), acc ≤ S.foldl (latestFoldStep ext pat) acc := by
  intro S
  induction S with
  | nil => intro acc; exact le_refl acc
  | cons e S ih =>
      intro acc
      calc acc ≤ latestFoldStep ext pat acc e := latestFoldStep_ge ext pat acc e
        _ ≤ S.foldl (latestFoldStep ext pat) (latestFoldStep ext pat acc e) := ih _

/-- A candidate with the right extension, exactly one qualifying run, the
matching series pattern and a version above the accumulator raises the
fold to its version. -/
theorem latestFoldStep_hit (ext pat : Str) (acc : Nat) (e : Str)
    (em : VersionMatch)
    (hext : toLowerStr (extname e) = ext)
    (hme : getVersionMatches (toLowerStr (stripScenarioEventTokens
      (basenameExt e ext))) = [em])
    (hpat : buildVersionPattern (toLowerStr (stripScenarioEventTokens
      (basenameExt e ext))) em = pat)
    (hgt : em.value > acc) :
    latestFoldStep ext pat acc e = em.value := by
  unfold latestFoldStep
  rw [if_neg (by rw [hext]; exact fun hcon => hcon rfl)]
  simp only [hme]
  rw [if_neg (by rw [hpat]; exact fun hcon => hcon rfl), if_pos hgt]

/-- C4: the latest-version status is monotone in the candidate set — a
file judged `not-latest` against `S` stays `not-latest` when any candidate
is added, and a file judged `latest` flips to `not-latest` when a sibling
with the same extension, exactly one qualifying run, an identical series
key and a higher version number is added; adding candidates never turns
`not-latest` back into `latest`. -/
theorem claim_C4 :
    (∀ (env : Env) (f : Str) (S : List Str) (e : Str),
      (getLatestVersionStatus env f (some S)).status = .notLatest →
      (getLatestVersionStatus env f (some (S ++ [e]))).status = .notLatest) ∧
    (∀ (env : Env) (f : Str) (S : List Str) (e : Str) (m em : VersionMatch),
      getVersionMatches (toLowerStr (stripScenarioEventTokens
        (basenameExt f (toLowerStr (extname f))))) = [m] →
      (getLatestVersionStatus env f (some S)).status = .latest →
      toLowerStr (extname e) = toLowerStr (extname f) →
      getVersionMatches (toLowerStr (stripScenarioEventTokens
        (basenameExt e (toLowerStr (extname f))))) = [em] →
      buildVersionPattern (toLowerStr (stripScenarioEventTokens
          (basenameExt e (toLowerStr (extname f))))) em =
        buildVersionPattern (toLowerStr (stripScenarioEventTokens
          (basenameExt f (toLowerStr (extname f))))) m →
      em.value > m.value →
      (getLatestVersionStatus env f (some (S ++ [e]))).status = .notLatest) := by
  constructor
  · intro env f S e h
    unfold getLatestVersionStatus at h ⊢
    rcases hm : getVersionMatches (toLowerStr (stripScenarioEventTokens
        (basenameExt f (toLowerStr (extname f))))) with _ | ⟨m, _ | ⟨m2, ms⟩⟩
    · simp only [hm] at h
      simp at h
    · simp only [hm] at h ⊢
      rw [List.foldl_append]
      simp only [List.foldl_cons, List.foldl_nil]
      split at h
      · simp at h
      · rename_i hne
        split
        · rename_i heq
          exfalso
          have h1 := foldl_latest_ge (toLowerStr (extname f))
            (buildVersionPattern (toLowerStr (stripScenarioEventTokens
              (basenameExt f (toLowerStr (extname f))))) m) S m.value
          have h2 := latestFoldStep_ge (toLowerStr (extname f))
            (buildVersionPattern (toLowerStr (stripScenarioEventTokens
              (basenameExt f (toLowerStr (extname f))))) m)
            (S.foldl (latestFoldStep (toLowerStr (extname f))
              (buildVersionPattern (toLowerStr (stripScenarioEventTokens
                (basenameExt f (toLowerStr (extname f))))) m)) m.value) e
          omega
        · rfl
    · simp only [hm] at h
      simp at h
  · intro env f S e m em hm h hext hme hpat hgt
    unfold getLatestVersionStatus at h ⊢
    simp only [hm] at h ⊢
    rw [List.foldl_append]
    simp only [List.foldl_cons, List.foldl_nil]
    split at h
    · rename_i heq
      rw [latestFoldStep_hit _ _ _ _ em hext hme hpat (by omega)]
      split
      · rename_i heq2
        omega
      · rfl
    · simp at h

/-- Witness for C4: `x_v02.shp` beside `x_v01.shp` keeps the stale file
`not-latest` after adding `x_v03.shp`, and flips a previously-`latest`
`x_v01.shp` to `not-latest` when `x_v02.shp` is added. -/
theorem claim_C4_witness :
    (getLatestVersionStatus envEmpty (chars "/m/x_v01.shp")
        (some ([chars "/m/x_v02.shp"] ++ [chars "/m/x_v03.shp"]))).status =
      VersionStatus.notLatest ∧
    (getLatestVersionStatus envEmpty (chars "/m/x_v01.shp")
        (some ([] ++ [chars "/m/x_v02.shp"]))).status = VersionStatus.notLatest := by
  constructor
  · exact claim_C4.1 envEmpty (chars "/m/x_v01.shp") [chars "/m/x_v02.shp"]
      (chars "/m/x_v03.shp") (by decide)
  · exact claim_C4.2 envEmpty (chars "/m/x_v01.shp") [] (chars "/m/x_v02.shp")
      { raw := chars "01", value := 1, start := 3, stop := 5 }
      { raw := chars "02", value := 2, start := 3, stop := 5 }
      (by decide) (by decide) (by decide) (by decide) (by decide) (by decide)

theorem vlookup_vset_ne (v : Visited) (k k' : Str) (d : List Diagnostic)
    (h : k' ≠ k) : vlookup (vset v k d) k' = vlookup v k' := by
  induction v with
  | nil =>
      simp only [vset, vlookup, List.find?]
      have : (k == k') = false := by
        simp only [beq_eq_false_iff_ne]
        exact fun hcon => h hcon.symm
      simp [this]
  | cons pr rest ih =>
      obtain ⟨k0, d0⟩ := pr
      by_cases hk : k0 = k
      · subst hk
        simp only [vset, if_pos rfl]
        simp only [vlookup, List.find?]
        have : (k0 == k') = false := by
          simp only [beq_eq_false_iff_ne]
          exact fun hcon => h hcon.symm
        simp [this]
      · simp only [vset, if_neg hk]
        simp only [vlookup, List.find?] at ih ⊢
        by_cases hk0 : (k0 == k') = true
        · simp [hk0]
        · simp only [Bool.not_eq_true] at hk0
          simp [hk0, ih]

theorem vlookup_none_iff (v : Visited) (k : Str) :
    vlookup v k = none ↔ k ∉ v.map Prod.fst := by
  induction v with
  | nil => simp [vlookup, List.find?]
  | cons pr rest ih =>
      obtain ⟨k0, d0⟩ := pr
      simp only [vlookup, List.find?, List.map_cons, List.mem_cons] at ih ⊢
      by_cases hk : (k0 == k) = true
      · have : k0 = k := by simpa using hk
        simp [hk, this]
      · simp only [Bool.not_eq_true] at hk
        have hne : ¬ (k = k0) := by
          intro hcon
          subst hcon
          simp at hk
        simp [hk, ih, hne]

theorem vlookup_append (m m' : Visited) (f : Str) :
    vlookup (m ++ m') f =
      match vlookup m f with
      | some ds => some ds
      | none => vlookup m' f := by
  induction m with
  | nil => simp [vlookup, List.find?]
  | cons pr rest ih =>
      obtain ⟨k0, d0⟩ := pr
      simp only [vlookup, List.find?, List.cons_append] at ih ⊢
      by_cases hk : (k0 == f) = true
      · simp [hk]
      · simp only [Bool.not_eq_true] at hk
        simp only [hk, List.find?] at ih ⊢
        rcases hfr : List.find? (fun pr => pr.1 == f) rest with _ | pr2
        · rw [hfr] at ih ⊢
          simpa using ih
        · rw [hfr] at ih ⊢
          simp [Option.or, hfr]

theorem vset_keys_of_mem (v : Visited) (k : Str) (d : List Diagnostic)
    (h : k ∈ v.map Prod.fst) :
    (vset v k d).map Prod.fst = v.map Prod.fst := by
  induction v with
  | nil => simp at h
  | cons pr rest ih =>
      obtain ⟨k0, d0⟩ := pr
      by_cases hk : k0 = k
      · simp [vset, hk]
      · simp only [List.map_cons, List.mem_cons] at h
        rcases h with h | h
        · exact absurd h.symm hk
        · simp [vset, hk, ih h]

theorem mergeInto_lookup (fm : Visited) :
    ∀ (m : Visited) (f : Str), (fm.map Prod.fst).Nodup →
      vlookup (mergeInto m fm) f = optAppend (vlookup m f) (vlookup fm f) := by
  induction fm with
  | nil =>
      intro m f _
      simp only [mergeInto, List.foldl_nil]
      rcases vlookup m f with _ | ds <;> simp [vlookup, List.find?, optAppend]
  | cons pr fmt ih =>
      intro m f hnd
      obtain ⟨k, ds⟩ := pr
      simp only [List.map_cons, List.nodup_cons] at hnd
      obtain ⟨hknot, hndt⟩ := hnd
      have hstep : mergeInto m ((k, ds) :: fmt) =
          mergeInto (match vlookup m k with
            | some existing => vset m k (existing ++ ds)
            | none => m ++ [(k, ds)]) fmt := by
        simp only [mergeInto, List.foldl_cons]
      rw [hstep, ih _ f hndt]
      by_cases hf : f = k
      · subst hf
        have hfmt : vlookup fmt f = none := (vlookup_none_iff fmt f).mpr hknot
        rw [hfmt]
        have hcons : vlookup ((f, ds) :: fmt) f = some ds := by
          simp [vlookup, List.find?]
        rw [hcons]
        rcases hm : vlookup m f with _ | ex
        · rw [vlookup_append]
          rw [hm]
          simp [vlookup, List.find?, optAppend]
        · rw [vlookup_vset_self]
          simp [optAppend]
      · have hcons : vlookup ((k, ds) :: fmt) f = vlookup fmt f := by
          have : (k == f) = false := by
            simp only [beq_eq_false_iff_ne]
            exact fun hcon => hf hcon.symm
          simp [vlookup, List.find?, this]
        rw [hcons]
        rcases hm : vlookup m k with _ | ex
        · rw [vlookup_append]
          have : vlookup [(k, ds)] f = none := by
            have : (k == f) = false := by
              simp only [beq_eq_false_iff_ne]
              exact fun hcon => hf hcon.symm
            simp [vlookup, List.find?, this]
          rw [this]
          rcases vlookup m f with _ | x <;> simp
        · rw [vlookup_vset_ne m k f _ hf]

theorem vlookup_some_mem {m : Visited} {k : Str} {ds : List Diagnostic}
    (h : vlookup m k = some ds) : k ∈ m.map Prod.fst := by
  by_contra hcon
  rw [(vlookup_none_iff m k).mpr hcon] at h
  exact absurd h (by simp)

theorem mergeInto_nodup (fm : Visited) :
    ∀ (m : Visited), (m.map Prod.fst).Nodup →
      ((mergeInto m fm).map Prod.fst).Nodup := by
  induction fm with
  | nil => intro m h; simpa [mergeInto] using h
  | cons pr fmt ih =>
      intro m h
      obtain ⟨k, ds⟩ := pr
      have hstep : mergeInto m ((k, ds) :: fmt) =
          mergeInto (match vlookup m k with
            | some existing => vset m k (existing ++ ds)
            | none => m ++ [(k, ds)]) fmt := by
        simp only [mergeInto, List.foldl_cons]
      rw [hstep]
      rcases hm : vlookup m k with _ | ex
      · apply ih
        have hknot : k ∉ m.map Prod.fst := (vlookup_none_iff m k).mp hm
        rw [List.map_append]
        simp only [List.map_cons, List.map_nil]
        refine List.Nodup.append h (List.nodup_singleton k) ?_
        intro a ha hb
        simp only [List.mem_singleton] at hb
        subst hb
        exact hknot ha
      · apply ih
        rw [vset_keys_of_mem m k _ (vlookup_some_mem hm)]
        exact h

theorem mergeFold_lookup :
    ∀ (roots : RootMap) (acc : Visited) (f : Str),
      (∀ pr ∈ roots, (pr.2.map Prod.fst).Nodup) →
      vlookup (roots.foldl (fun m pr => mergeInto m pr.2) acc) f =
        roots.foldl (fun o pr => optAppend o (vlookup pr.2 f)) (vlookup acc f) := by
  intro roots
  induction roots with
  | nil => intro acc f _; simp
  | cons pr roots ih =>
      intro acc f hnd
      simp only [List.foldl_cons]
      rw [ih _ f (fun q hq => hnd q (List.mem_cons_of_mem pr hq))]
      rw [mergeInto_lookup pr.2 acc f (hnd pr (List.mem_cons_self pr roots))]

theorem mergeRoots_lookup (roots : RootMap) (f : Str)
    (hnd : ∀ pr ∈ roots, (pr.2.map Prod.fst).Nodup) :
    vlookup (mergeRoots roots) f = mergedView roots f := by
  unfold mergeRoots mergedView
  rw [mergeFold_lookup roots [] f hnd]
  rfl

theorem mergeRoots_nodup (roots : RootMap) :
    ((mergeRoots roots).map Prod.fst).Nodup := by
  unfold mergeRoots
  have : ∀ (rs : RootMap) (acc : Visited), (acc.map Prod.fst).Nodup →
      ((rs.foldl (fun m pr => mergeInto m pr.2) acc).map Prod.fst).Nodup := by
    intro rs
    induction rs with
    | nil => intro acc h; simpa using h
    | cons pr rs ih =>
        intro acc h
        simp only [List.foldl_cons]
        exact ih _ (mergeInto_nodup pr.2 acc h)
  exact this roots [] (by simp)

theorem setfold_lookup :
    ∀ (merged col : Visited) (f : Str), ((merged.map Prod.fst).Nodup) →
      vlookup (merged.foldl (fun col pr => vset col pr.1 pr.2) col) f =
        match vlookup merged f with
        | some ds => some ds
        | none => vlookup col f := by
  intro merged
  induction merged with
  | nil => intro col f _; simp [vlookup, List.find?]
  | cons pr rest ih =>
      intro col f hnd
      obtain ⟨k, ds⟩ := pr
      simp only [List.map_cons, List.nodup_cons] at hnd
      obtain ⟨hknot, hndt⟩ := hnd
      simp only [List.foldl_cons]
      rw [ih (vset col k ds) f hndt]
      by_cases hf : f = k
      · subst hf
        rw [(vlookup_none_iff rest f).mpr hknot]
        have : vlookup ((f, ds) :: rest) f = some ds := by simp [vlookup, List.find?]
        rw [this, vlookup_vset_self]
      · have hne : (k == f) = false := by
          simp only [beq_eq_false_iff_ne]
          exact fun hcon => hf hcon.symm
        have : vlookup ((k, ds) :: rest) f = vlookup rest f := by
          simp [vlookup, List.find?, hne]
        rw [this, vlookup_vset_ne col k f ds hf]

theorem adelete_sublist {α : Type} (m : List (Str × α)) (k : Str) :
    (adelete m k).Sublist m := by
  induction m with
  | nil => simp [adelete]
  | cons pr rest ih =>
      obtain ⟨k0, x0⟩ := pr
      by_cases hk : k0 = k
      · simp only [adelete, if_pos hk]
        exact List.sublist_cons_self (k0, x0) rest
      · simp only [adelete, if_neg hk]
        exact List.Sublist.cons₂ (k0, x0) ih

theorem vlookup_adelete_self (col : Visited) (k : Str)
    (hnd : (col.map Prod.fst).Nodup) : vlookup (adelete col k) k = none := by
  induction col with
  | nil => simp [adelete, vlookup, List.find?]
  | cons pr rest ih =>
      obtain ⟨k0, d0⟩ := pr
      simp only [List.map_cons, List.nodup_cons] at hnd
      obtain ⟨hknot, hndt⟩ := hnd
      by_cases hk : k0 = k
      · subst hk
        simp only [adelete, if_pos rfl]
        exact (vlookup_none_iff rest k0).mpr hknot
      · simp only [adelete, if_neg hk]
        have hne : (k0 == k) = false := by
          simp only [beq_eq_false_iff_ne]
          exact hk
        simp only [vlookup, List.find?, hne]
        exact ih hndt

theorem vlookup_adelete_ne (col : Visited) (k f : Str) (hf : f ≠ k) :
    vlookup (adelete col k) f = vlookup col f := by
  induction col with
  | nil => simp [adelete]
  | cons pr rest ih =>
      obtain ⟨k0, d0⟩ := pr
      by_cases hk : k0 = k
      · subst hk
        simp only [adelete, if_pos rfl]
        have hne : (k0 == f) = false := by
          simp only [beq_eq_false_iff_ne]
          exact fun hcon => hf hcon.symm
        simp [vlookup, List.find?, hne]
      · simp only [adelete, if_neg hk]
        by_cases hk0f : (k0 == f) = true
        · simp [vlookup, List.find?, hk0f]
        · simp only [Bool.not_eq_true] at hk0f
          simp only [vlookup, List.find?, hk0f] at ih ⊢
          exact ih

theorem delfold_pres (merged : Visited) :
    ∀ (files : List Str) (col : Visited) (f : Str),
      vlookup col f = none →
      vlookup (files.foldl
        (fun col fp => if (vlookup merged fp).isNone then adelete col fp else col)
        col) f = none := by
  intro files
  induction files with
  | nil => intro col f h; simpa using h
  | cons fp files ih =>
      intro col f h
      simp only [List.foldl_cons]
      apply ih
      split
      · rw [vlookup_none_iff] at h ⊢
        intro hmem
        exact h (List.Sublist.subset (List.Sublist.map Prod.fst (adelete_sublist col fp)) hmem)
      · exact h

theorem delfold_nodup (merged : Visited) :
    ∀ (files : List Str) (col : Visited),
      (col.map Prod.fst).Nodup →
      (((files.foldl
        (fun col fp => if (vlookup merged fp).isNone then adelete col fp else col)
        col)).map Prod.fst).Nodup := by
  intro files
  induction files with
  | nil => intro col h; simpa using h
  | cons fp files ih =>
      intro col h
      simp only [List.foldl_cons]
      apply ih
      split
      · exact List.Nodup.sublist (List.Sublist.map Prod.fst (adelete_sublist col fp)) h
      · exact h

theorem delfold_none (merged : Visited) :
    ∀ (files : List Str) (col : Visited) (f : Str),
      (col.map Prod.fst).Nodup →
      f ∈ files → vlookup merged f = none →
      vlookup (files.foldl
        (fun col fp => if (vlookup merged fp).isNone then adelete col fp else col)
        col) f = none := by
  intro files
  induction files with
  | nil => intro col f _ hmem _; exact absurd hmem (List.not_mem_nil f)
  | cons fp files ih =>
      intro col f hnd hmem hnone
      simp only [List.foldl_cons]
      by_cases hf : f = fp
      · subst hf
        rw [if_pos (by simp [hnone])]
        exact delfold_pres merged files _ f (vlookup_adelete_self col f hnd)
      · have hmem2 : f ∈ files := by
          rcases List.mem_cons.mp hmem with h | h
          · exact absurd h hf
          · exact h
        apply ih _ f _ hmem2 hnone
        split
        · exact List.Nodup.sublist (List.Sublist.map Prod.fst (adelete_sublist col fp)) hnd
        · exact hnd


/-- Counterexample for C9: roots `r1` (one error for `/x/f.shp`) and `r2`
(an empty list for the same file) are merged; after removing `r1`, the
merged view of `/x/f.shp` is `some []` — zero diagnostics — yet the
display collection still holds an entry `some []` for the file instead of
having it cleared: only files that vanish from the merge entirely are
deleted. -/
theorem claim_C9_cex :
    mergedView (removeDiagnosticsForDocument (chars "r1") rootsC9 stC9).1
        (chars "/x/f.shp") = some [] ∧
      vlookup (removeDiagnosticsForDocument (chars "r1") rootsC9 stC9).2.collection
        (chars "/x/f.shp") = some [] := by
  constructor
  · decide
  · decide

/-- C9 (amended): the merged per-file view equals the concatenation, in
root order and without deduplication, of every tracked root's diagnostic
list for that file; after a rebuild (as triggered by root removal or
refresh) the display collection shows exactly that merged list for every
file some root still tracks, and a file that no root tracks any more has
its display entry cleared entirely — but a file still tracked with an
empty list keeps an empty-list entry (the uncorrected claim fails there,
see the counterexample). -/
theorem claim_C9 :
    (∀ (roots : RootMap) (f : Str),
      (∀ pr ∈ roots, (pr.2.map Prod.fst).Nodup) →
      vlookup (mergeRoots roots) f = mergedView roots f) ∧
    (∀ (roots : RootMap) (st : DiagState) (f : Str) (ds : List Diagnostic),
      (∀ pr ∈ roots, (pr.2.map Prod.fst).Nodup) →
      mergedView roots f = some ds →
      vlookup (rebuildMergedDiagnostics roots st).collection f = some ds) ∧
    (∀ (roots : RootMap) (st : DiagState) (f : Str),
      (∀ pr ∈ roots, (pr.2.map Prod.fst).Nodup) →
      (st.collection.map Prod.fst).Nodup →
      (∀ k ∈ st.collection.map Prod.fst, k ∈ st.mergedFiles) →
      mergedView roots f = none →
      vlookup (rebuildMergedDiagnostics roots st).collection f = none) := by
  refine ⟨mergeRoots_lookup, ?_, ?_⟩
  · intro roots st f ds hnd hview
    have hmerged : vlookup (mergeRoots roots) f = some ds := by
      rw [mergeRoots_lookup roots f hnd]; exact hview
    unfold rebuildMergedDiagnostics
    simp only []
    rw [setfold_lookup (mergeRoots roots) _ f (mergeRoots_nodup roots), hmerged]
  · intro roots st f hnd hcol hsub hview
    have hmerged : vlookup (mergeRoots roots) f = none := by
      rw [mergeRoots_lookup roots f hnd]; exact hview
    unfold rebuildMergedDiagnostics
    simp only []
    rw [setfold_lookup (mergeRoots roots) _ f (mergeRoots_nodup roots), hmerged]
    by_cases hmem : f ∈ st.mergedFiles
    · exact delfold_none (mergeRoots roots) st.mergedFiles st.collection f hcol hmem hmerged
    · apply delfold_pres
      rw [vlookup_none_iff]
      intro hkeys
      exact hmem (hsub f hkeys)

/-- Witness for C9: with a single root tracking `/x/f.shp`, the rebuilt
collection shows exactly the root's list, and a file tracked by no root is
absent from the collection. -/
theorem claim_C9_witness :
    vlookup (rebuildMergedDiagnostics
        [(chars "r1", [(chars "/x/f.shp",
            [{ range := ⟨0, 0, 0, 1⟩, message := chars "File not found: x",
               severity := .error }])])]
        ⟨[], []⟩).collection (chars "/x/f.shp") =
      some [{ range := ⟨0, 0, 0, 1⟩, message := chars "File not found: x",
              severity := .error }] ∧
    vlookup (rebuildMergedDiagnostics
        [(chars "r1", [(chars "/x/f.shp",
            [{ range := ⟨0, 0, 0, 1⟩, message := chars "File not found: x",
               severity := .error }])])]
        ⟨[(chars "/x/g.shp", [])], [chars "/x/g.shp"]⟩).collection
      (chars "/x/g.shp") = none := by
  constructor
  · exact claim_C9.2.1
      [(chars "r1", [(chars "/x/f.shp",
          [{ range := ⟨0, 0, 0, 1⟩, message := chars "File not found: x",
             severity := .error }])])]
      ⟨[], []⟩ (chars "/x/f.shp") _ (by decide) (by decide)
  · exact claim_C9.2.2
      [(chars "r1", [(chars "/x/f.shp",
          [{ range := ⟨0, 0, 0, 1⟩, message := chars "File not found: x",
             severity := .error }])])]
      ⟨[(chars "/x/g.shp", [])], [chars "/x/g.shp"]⟩ (chars "/x/g.shp")
      (by decide) (by decide) (by decide) (by decide)

theorem digitAt_cons_zero (c : Char) (cs : Str) :
    digitAt (c :: cs) 0 = isDigitChar c := by
  simp [digitAt]

theorem digitAt_cons_succ (c : Char) (cs : Str) (k : Nat) :
    digitAt (c :: cs) (k + 1) = digitAt cs k := by
  simp [digitAt]

theorem digitAt_drop (l : Str) (n k : Nat) :
    digitAt (l.drop n) k = digitAt l (n + k) := by
  simp [digitAt, List.getElem?_drop]

theorem digitAt_ge_len (l : Str) (k : Nat) (h : l.length ≤ k) :
    digitAt l k = false := by
  simp [digitAt, List.getElem?_eq_none h]

theorem letterAfter_eq (s : Str) (en : Nat) :
    letterAfter s en = letterAt s en := by
  simp [letterAfter, letterAt, List.head?_drop]

theorem digitAt_lt_takeWhile :
    ∀ (l : Str) (k : Nat), k < (l.takeWhile isDigitChar).length →
      digitAt l k = true := by
  intro l
  induction l with
  | nil => intro k h; simp [List.takeWhile] at h
  | cons c cs ih =>
      intro k h
      by_cases hc : isDigitChar c = true
      · rw [List.takeWhile_cons_of_pos hc] at h
        cases k with
        | zero => simpa [digitAt_cons_zero] using hc
        | succ k =>
            rw [digitAt_cons_succ]
            exact ih k (by simpa using h)
      · rw [List.takeWhile_cons_of_neg hc] at h
        simp at h

theorem digitAt_takeWhile_len :
    ∀ (l : Str), digitAt l (l.takeWhile isDigitChar).length = false := by
  intro l
  induction l with
  | nil => simp [digitAt]
  | cons c cs ih =>
      by_cases hc : isDigitChar c = true
      · rw [List.takeWhile_cons_of_pos hc]
        simpa [digitAt_cons_succ] using ih
      · rw [List.takeWhile_cons_of_neg hc]
        simpa [digitAt_cons_zero] using hc

theorem takeWhile_len_le (l : Str) :
    (l.takeWhile isDigitChar).length ≤ l.length :=
  List.IsPrefix.length_le (List.takeWhile_prefix isDigitChar)

theorem shiftRun (l : Str) (n a b : Nat)
    (hb : n = 0 ∨ digitAt l (n - 1) = false) :
    IsMaxDigitRun (l.drop n) a b ↔ IsMaxDigitRun l (n + a) (n + b) := by
  unfold IsMaxDigitRun
  constructor
  · rintro ⟨h1, h2, h3, h4, h5⟩
    refine ⟨by omega, ?_, ?_, ?_, ?_⟩
    · rw [List.length_drop] at h2
      omega
    · intro k hk1 hk2
      have := h3 (k - n) (by omega) (by omega)
      rw [digitAt_drop] at this
      have heq : n + (k - n) = k := by omega
      rwa [heq] at this
    · rcases Nat.eq_zero_or_pos a with ha | ha
      · subst ha
        rcases hb with hb | hb
        · left; omega
        · right
          have heq : n + 0 - 1 = n - 1 := by omega
          rw [heq]
          exact hb
      · right
        rcases h4 with h4 | h4
        · omega
        · rw [digitAt_drop] at h4
          have heq : n + (a - 1) = n + a - 1 := by omega
          rwa [heq] at h4
    · rw [digitAt_drop] at h5
      exact h5
  · rintro ⟨h1, h2, h3, h4, h5⟩
    refine ⟨by omega, ?_, ?_, ?_, ?_⟩
    · rw [List.length_drop]
      omega
    · intro k hk1 hk2
      rw [digitAt_drop]
      exact h3 (n + k) (by omega) (by omega)
    · rcases Nat.eq_zero_or_pos a with ha | ha
      · left; omega
      · right
        rw [digitAt_drop]
        have heq : n + (a - 1) = n + a - 1 := by omega
        rw [heq]
        rcases h4 with h4 | h4
        · omega
        · exact h4
    · rw [digitAt_drop]
      exact h5

theorem headRun_digit (c : Char) (cs : Str) (hc : isDigitChar c = true) :
    IsMaxDigitRun (c :: cs) 0 ((cs.takeWhile isDigitChar).length + 1) := by
  refine ⟨by omega, ?_, ?_, Or.inl rfl, ?_⟩
  · have := takeWhile_len_le cs
    simp only [List.length_cons]
    omega
  · intro k _ hk2
    cases k with
    | zero => simpa [digitAt_cons_zero] using hc
    | succ k =>
        rw [digitAt_cons_succ]
        exact digitAt_lt_takeWhile cs k (by omega)
  · rw [digitAt_cons_succ]
    exact digitAt_takeWhile_len cs

theorem digitRunsAux_shift :
    ∀ (t : Str) (i j : Nat) (acc : Option Nat),
      digitRunsAux t (i + j) (acc.map fun st => st + j) =
        (digitRunsAux t i acc).map fun pr => (pr.1 + j, pr.2 + j) := by
  intro t
  induction t with
  | nil =>
      intro i j acc
      cases acc <;> simp [digitRunsAux]
  | cons c cs ih =>
      intro i j acc
      cases acc with
      | none =>
          by_cases hc : isDigitChar c = true
          · simp only [Option.map_none, digitRunsAux]
            rw [if_pos hc, if_pos hc]
            have h := ih (i + 1) j (some i)
            simp only [Option.map_some] at h
            have he : i + 1 + j = i + j + 1 := by omega
            rw [he] at h
            exact h
          · simp only [Option.map_none, digitRunsAux]
            rw [if_neg hc, if_neg hc]
            have h := ih (i + 1) j none
            simp only [Option.map_none] at h
            have he : i + 1 + j = i + j + 1 := by omega
            rw [he] at h
            exact h
      | some st =>
          by_cases hc : isDigitChar c = true
          · simp only [Option.map_some, digitRunsAux]
            rw [if_pos hc, if_pos hc]
            have h := ih (i + 1) j (some st)
            simp only [Option.map_some] at h
            have he : i + 1 + j = i + j + 1 := by omega
            rw [he] at h
            exact h
          · simp only [Option.map_some, digitRunsAux]
            rw [if_neg hc, if_neg hc]
            have h := ih (i + 1) j none
            simp only [Option.map_none] at h
            have he : i + 1 + j = i + j + 1 := by omega
            rw [he] at h
            rw [List.map_cons, ← h]
            rfl

theorem digitRunsAux_some :
    ∀ (cs : Str) (i st : Nat),
      digitRunsAux cs i (some st) =
        (st, i + (cs.takeWhile isDigitChar).length) ::
          digitRunsAux (cs.drop ((cs.takeWhile isDigitChar).length + 1))
            (i + (cs.takeWhile isDigitChar).length + 1) none := by
  intro cs
  induction cs with
  | nil => intro i st; simp [digitRunsAux]
  | cons c cs ih =>
      intro i st
      by_cases hc : isDigitChar c = true
      · rw [List.takeWhile_cons_of_pos hc]
        simp only [digitRunsAux]
        rw [if_pos hc]
        rw [ih (i + 1) st]
        have h1 : i + 1 + (cs.takeWhile isDigitChar).length =
            i + (cs.takeWhile isDigitChar).length + 1 := by omega
        rw [h1]
        simp only [List.length_cons, List.drop_succ_cons, Nat.add_assoc]
      · rw [List.takeWhile_cons_of_neg hc]
        simp only [digitRunsAux]
        rw [if_neg hc]
        simp

theorem digitRuns_char :
    ∀ (n : Nat) (s : Str), s.length ≤ n →
      ∀ st en, ((st, en) ∈ digitRuns s ↔ IsMaxDigitRun s st en) := by
  intro n
  induction n with
  | zero =>
      intro s hs st en
      have hnil : s = [] := List.eq_nil_of_length_eq_zero (Nat.le_zero.mp hs)
      subst hnil
      simp only [digitRuns, digitRunsAux, List.not_mem_nil, false_iff, IsMaxDigitRun]
      rintro ⟨h1, h2, -, -, -⟩
      simp at h2
      omega
  | succ n ih =>
      intro s hs st en
      cases s with
      | nil =>
          simp only [digitRuns, digitRunsAux, List.not_mem_nil, false_iff, IsMaxDigitRun]
          rintro ⟨h1, h2, -, -, -⟩
          simp at h2
          omega
      | cons c cs =>
          have hcs : cs.length ≤ n := by
            simp only [List.length_cons] at hs
            omega
          by_cases hc : isDigitChar c = true
          · have htw : ((c :: cs).takeWhile isDigitChar).length =
                (cs.takeWhile isDigitChar).length + 1 := by
              rw [List.takeWhile_cons_of_pos hc]
              simp
            set D := (cs.takeWhile isDigitChar).length with hD
            have hlen : (cs.drop (D + 1)).length ≤ n := by
              rw [List.length_drop]
              omega
            have hsh : digitRunsAux (cs.drop (D + 1)) (D + 2) none =
                (digitRuns (cs.drop (D + 1))).map
                  fun pr => (pr.1 + (D + 2), pr.2 + (D + 2)) := by
              have h := digitRunsAux_shift (cs.drop (D + 1)) 0 (D + 2) none
              simp only [Nat.zero_add] at h
              exact h
            have hrw : digitRuns (c :: cs) =
                (0, D + 1) :: ((digitRuns (cs.drop (D + 1))).map
                  fun pr => (pr.1 + (D + 2), pr.2 + (D + 2))) := by
              have h0 : digitRuns (c :: cs) = digitRunsAux cs 1 (some 0) := by
                simp only [digitRuns, digitRunsAux]
                rw [if_pos hc]
              rw [h0, digitRunsAux_some cs 1 0]
              have e2 : 1 + D + 1 = D + 2 := by omega
              rw [e2]
              have e1 : 1 + D = D + 1 := by omega
              rw [e1]
              rw [← hsh]
            have hD1 : digitAt (c :: cs) (D + 1) = false := by
              rw [digitAt_cons_succ]
              exact digitAt_takeWhile_len cs
            have hDk : ∀ k, k ≤ D → digitAt (c :: cs) k = true := by
              intro k hk
              apply digitAt_lt_takeWhile (c :: cs) k
              rw [htw]
              omega
            have hhead : IsMaxDigitRun (c :: cs) 0 (D + 1) := headRun_digit c cs hc
            have hb : D + 2 = 0 ∨ digitAt (c :: cs) (D + 2 - 1) = false := by
              right
              have e3 : D + 2 - 1 = D + 1 := by omega
              rw [e3]
              exact hD1
            have hdrop : (c :: cs).drop (D + 2) = cs.drop (D + 1) :=
              List.drop_succ_cons
            rw [hrw]
            simp only [List.mem_cons, List.mem_map]
            constructor
            · rintro (heq | ⟨pr, hpr, heq⟩)
              · rw [Prod.mk.injEq] at heq
                obtain ⟨e4, e5⟩ := heq
                subst e4
                subst e5
                exact hhead
              · obtain ⟨a, b⟩ := pr
                rw [Prod.mk.injEq] at heq
                obtain ⟨e4, e5⟩ := heq
                subst e4
                subst e5
                have hmax : IsMaxDigitRun (cs.drop (D + 1)) a b :=
                  (ih (cs.drop (D + 1)) hlen a b).mp hpr
                have h := (shiftRun (c :: cs) (D + 2) a b hb).mp
                  (by rw [hdrop]; exact hmax)
                have e6 : a + (D + 2) = D + 2 + a := by omega
                have e7 : b + (D + 2) = D + 2 + b := by omega
                rw [e6, e7]
                exact h
            · intro hmax
              obtain ⟨h1, h2, h3, h4, h5⟩ := hmax
              by_cases hst0 : st = 0
              · left
                subst hst0
                have hen1 : ¬ en ≤ D := by
                  intro hle
                  have ht := hDk en hle
                  rw [h5] at ht
                  simp at ht
                have hen2 : ¬ D + 2 ≤ en := by
                  intro hge
                  have ht := h3 (D + 1) (by omega) (by omega)
                  rw [hD1] at ht
                  simp at ht
                have he : en = D + 1 := by omega
                rw [he]
              · right
                have h4f : digitAt (c :: cs) (st - 1) = false := by
                  rcases h4 with h4 | h4
                  · exact absurd h4 hst0
                  · exact h4
                have hst1 : D + 2 ≤ st := by
                  by_contra hlt
                  have ht := hDk (st - 1) (by omega)
                  rw [h4f] at ht
                  simp at ht
                refine ⟨(st - (D + 2), en - (D + 2)), ?_, ?_⟩
                · apply (ih (cs.drop (D + 1)) hlen (st - (D + 2)) (en - (D + 2))).mpr
                  have e8 : D + 2 + (st - (D + 2)) = st := by omega
                  have e9 : D + 2 + (en - (D + 2)) = en := by omega
                  have h := (shiftRun (c :: cs) (D + 2) (st - (D + 2))
                    (en - (D + 2)) hb).mpr (by rw [e8, e9]; exact ⟨h1, h2, h3, h4, h5⟩)
                  rw [hdrop] at h
                  exact h
                · rw [Prod.mk.injEq]
                  constructor <;> omega
          · have hrw : digitRuns (c :: cs) =
                (digitRuns cs).map fun pr => (pr.1 + 1, pr.2 + 1) := by
              have h0 : digitRuns (c :: cs) = digitRunsAux cs 1 none := by
                simp only [digitRuns, digitRunsAux]
                rw [if_neg hc]
              have h := digitRunsAux_shift cs 0 1 none
              simp only [Nat.zero_add] at h
              rw [h0]
              exact h
            have hb : (1 : Nat) = 0 ∨ digitAt (c :: cs) (1 - 1) = false := by
              right
              rw [digitAt_cons_zero]
              simp only [Bool.not_eq_true] at hc
              exact hc
            have hdrop : (c :: cs).drop 1 = cs := by
              simp
            rw [hrw]
            simp only [List.mem_map]
            constructor
            · rintro ⟨pr, hpr, heq⟩
              obtain ⟨a, b⟩ := pr
              rw [Prod.mk.injEq] at heq
              obtain ⟨e4, e5⟩ := heq
              subst e4
              subst e5
              have hmax : IsMaxDigitRun cs a b := (ih cs hcs a b).mp hpr
              have h := (shiftRun (c :: cs) 1 a b hb).mp (by rw [hdrop]; exact hmax)
              have e6 : a + 1 = 1 + a := by omega
              have e7 : b + 1 = 1 + b := by omega
              rw [e6, e7]
              exact h
            · intro hmax
              obtain ⟨h1, h2, h3, h4, h5⟩ := hmax
              have hst1 : 1 ≤ st := by
                by_contra hlt
                have hst0 : st = 0 := by omega
                have ht := h3 0 (by omega) (by omega)
                rw [digitAt_cons_zero] at ht
                exact hc ht
              refine ⟨(st - 1, en - 1), ?_, ?_⟩
              · apply (ih cs hcs (st - 1) (en - 1)).mpr
                have e8 : 1 + (st - 1) = st := by omega
                have e9 : 1 + (en - 1) = en := by omega
                have h := (shiftRun (c :: cs) 1 (st - 1) (en - 1) hb).mpr
                  (by rw [e8, e9]; exact ⟨h1, h2, h3, h4, h5⟩)
                rw [hdrop] at h
                exact h
              · rw [Prod.mk.injEq]
                constructor <;> omega

theorem digitRuns_iff (s : Str) (st en : Nat) :
    (st, en) ∈ digitRuns s ↔ IsMaxDigitRun s st en :=
  digitRuns_char s.length s le_rfl st en

theorem getVersionMatches_mem (s : Str) (m : VersionMatch) :
    m ∈ getVersionMatches s ↔
      IsQualifyingRun s m.start m.stop ∧
        m.raw = (s.drop m.start).take (m.stop - m.start) ∧
        m.value = natOfDigits m.raw := by
  obtain ⟨raw, value, start, stop⟩ := m
  unfold getVersionMatches
  rw [List.mem_filterMap]
  constructor
  · rintro ⟨pr, hpr, hf⟩
    by_cases hl : letterAfter s pr.2 = true
    · rw [if_pos hl] at hf
      exact absurd hf (by simp)
    · rw [if_neg hl] at hf
      have hm := Option.some.inj hf
      rw [VersionMatch.mk.injEq] at hm
      obtain ⟨e1, e2, e3, e4⟩ := hm
      subst e1
      subst e2
      subst e3
      subst e4
      simp only [Bool.not_eq_true] at hl
      have hpr2 : (pr.1, pr.2) ∈ digitRuns s := by
        rw [Prod.mk.eta]
        exact hpr
      refine ⟨⟨(digitRuns_iff s pr.1 pr.2).mp hpr2, ?_⟩, rfl, rfl⟩
      rw [← letterAfter_eq]
      exact hl
  · rintro ⟨⟨hmax, hlet⟩, hraw, hval⟩
    refine ⟨(start, stop), (digitRuns_iff s start stop).mpr hmax, ?_⟩
    have hl : letterAfter s (start, stop).2 = false := by
      rw [letterAfter_eq]
      exact hlet
    rw [if_neg (by rw [hl]; simp)]
    simp only at hraw hval
    subst hraw
    subst hval
    rfl

theorem getVersionMatches_nil_iff (s : Str) :
    getVersionMatches s = [] ↔ ∀ st en, ¬ IsQualifyingRun s st en := by
  constructor
  · intro hnil st en hq
    have hm : VersionMatch.mk ((s.drop st).take (en - st))
        (natOfDigits ((s.drop st).take (en - st))) st en ∈ getVersionMatches s := by
      rw [getVersionMatches_mem]
      exact ⟨hq, rfl, rfl⟩
    rw [hnil] at hm
    exact absurd hm (List.not_mem_nil _)
  · intro hno
    by_contra hne
    obtain ⟨m, hm⟩ := List.exists_mem_of_ne_nil _ hne
    have h := (getVersionMatches_mem s m).mp hm
    exact hno m.start m.stop h.1

theorem glvs_nil (env : Env) (f : Str)
    (h : getVersionMatches (cleanedNameOf f) = []) :
    getLatestVersionStatus env f none = { status := VersionStatus.noVersion } := by
  simp only [cleanedNameOf] at h
  simp only [getLatestVersionStatus]
  rw [h]

theorem glvs_single (env : Env) (f : Str) (m : VersionMatch)
    (h : getVersionMatches (cleanedNameOf f) = [m]) :
    (getLatestVersionStatus env f none).status ≠ VersionStatus.noVersion ∧
    (getLatestVersionStatus env f none).status ≠ VersionStatus.ambiguous ∧
    (getLatestVersionStatus env f none).currentVersion = some m.value := by
  simp only [cleanedNameOf] at h
  simp only [getLatestVersionStatus]
  rw [h]
  rcases hr : env.readdir (dirname f) with _ | entries
  · simp
  · refine ⟨?_, ?_, ?_⟩ <;> (simp only; split) <;> simp

theorem glvs_multi (env : Env) (f : Str) (m1 m2 : VersionMatch)
    (rest : List VersionMatch)
    (h : getVersionMatches (cleanedNameOf f) = m1 :: m2 :: rest) :
    getLatestVersionStatus env f none = { status := VersionStatus.ambiguous } := by
  simp only [cleanedNameOf] at h
  simp only [getLatestVersionStatus]
  rw [h]

/-- C3: over the cleaned base name (extension removed, scenario/event
tokens stripped, lowercased), the version matcher's matches are exactly
the maximal digit runs not immediately followed by an ASCII letter,
carrying the run's text and its decimal value; the status is no-version
iff no qualifying run exists, ambiguous iff there are at least two
matches — in which case, with latest checks enabled, the reference check
surfaces exactly one multiple-numeric-tokens Warning and no staleness
comparison — and with exactly one match that run's decimal value is the
version number. -/
theorem claim_C3 (env : Env) (f : Str) (range : Range) :
    (∀ m, m ∈ getVersionMatches (cleanedNameOf f) ↔
        IsQualifyingRun (cleanedNameOf f) m.start m.stop ∧
          m.raw = ((cleanedNameOf f).drop m.start).take (m.stop - m.start) ∧
          m.value = natOfDigits m.raw) ∧
    ((getLatestVersionStatus env f none).status = VersionStatus.noVersion ↔
        ∀ st en, ¬ IsQualifyingRun (cleanedNameOf f) st en) ∧
    ((getLatestVersionStatus env f none).status = VersionStatus.ambiguous ↔
        2 ≤ (getVersionMatches (cleanedNameOf f)).length) ∧
    (∀ m, getVersionMatches (cleanedNameOf f) = [m] →
        (getLatestVersionStatus env f none).currentVersion = some m.value) ∧
    (env.latestEnabled = true →
        (getLatestVersionStatus env f none).status = VersionStatus.ambiguous →
        checkReferencedFileLatestVersion env f range =
          [{ range := range, message := ambiguousMsg f,
             severity := Severity.warning }]) := by
  refine ⟨fun m => getVersionMatches_mem (cleanedNameOf f) m, ?_, ?_, ?_, ?_⟩
  · rw [← getVersionMatches_nil_iff]
    constructor
    · intro hst
      rcases hm : getVersionMatches (cleanedNameOf f) with _ | ⟨m1, _ | ⟨m2, rest⟩⟩
      · rfl
      · exact absurd hst (glvs_single env f m1 hm).1
      · rw [glvs_multi env f m1 m2 rest hm] at hst
        exact absurd hst (by decide)
    · intro hnil
      rw [glvs_nil env f hnil]
  · rcases hm : getVersionMatches (cleanedNameOf f) with _ | ⟨m1, _ | ⟨m2, rest⟩⟩
    · rw [glvs_nil env f hm]
      simp
    · constructor
      · intro hst
        exact absurd hst (glvs_single env f m1 hm).2.1
      · intro hlen
        simp at hlen
    · rw [glvs_multi env f m1 m2 rest hm]
      simp
  · intro m hm
    exact (glvs_single env f m hm).2.2
  · intro hen hamb
    simp only [checkReferencedFileLatestVersion]
    rw [if_neg (by simp [hen])]
    rw [if_pos hamb]

theorem claim_C3_witness :
    envC3.latestEnabled = true ∧
    (getLatestVersionStatus envC3 fAmbC3 none).status = VersionStatus.ambiguous ∧
    checkReferencedFileLatestVersion envC3 fAmbC3 rC3 =
      [{ range := rC3, message := ambiguousMsg fAmbC3,
         severity := Severity.warning }] ∧
    getVersionMatches (cleanedNameOf fSingleC3) = [mC3] ∧
    (getLatestVersionStatus envC3 fSingleC3 none).currentVersion = some mC3.value :=
  ⟨rfl, by decide,
   (claim_C3 envC3 fAmbC3 rC3).2.2.2.2 rfl (by decide),
   by decide,
   (claim_C3 envC3 fSingleC3 rC3).2.2.2.1 mC3 (by decide)⟩

theorem Subkeys_refl (v : Visited) : Subkeys v v := fun _ h => h

theorem Subkeys_trans {u v w : Visited} (h1 : Subkeys u v) (h2 : Subkeys v w) :
    Subkeys u w := fun x h => h2 x (h1 x h)

theorem Subkeys_vset (v : Visited) (k : Str) (d : List Diagnostic) :
    Subkeys v (vset v k d) := by
  intro x hx
  by_cases hk : x = k
  · subst hk
    rw [vlookup_vset_self]
    rfl
  · rw [vlookup_vset_ne v k x d hk]
    exact hx

theorem countP_mono2 (p q : Str → Bool) (h : ∀ x, q x = true → p x = true) :
    ∀ l : List Str, l.countP q ≤ l.countP p := by
  intro l
  induction l with
  | nil => simp
  | cons a rest ih =>
      rw [List.countP_cons, List.countP_cons]
      have ha : (if q a then 1 else 0) ≤ (if p a then 1 else 0) := by
        by_cases hqa : q a = true
        · simp [hqa, h a hqa]
        · simp [hqa]
      omega

theorem countP_lt (p q : Str → Bool) (h : ∀ x, q x = true → p x = true)
    (x0 : Str) (hp : p x0 = true) (hq : q x0 = false) :
    ∀ l : List Str, x0 ∈ l → l.countP q < l.countP p := by
  intro l
  induction l with
  | nil => intro hmem; simp at hmem
  | cons a rest ih =>
      intro hmem
      rw [List.countP_cons, List.countP_cons]
      rcases List.mem_cons.mp hmem with he | hmem2
      · subst he
        have hmono := countP_mono2 p q h rest
        simp [hq, hp]
        omega
      · have hstrict := ih hmem2
        have ha : (if q a then 1 else 0) ≤ (if p a then 1 else 0) := by
          by_cases hqa : q a = true
          · simp [hqa, h a hqa]
          · simp [hqa]
        omega

theorem unvisited_mono (env : Env) (v w : Visited) (hsub : Subkeys v w) :
    unvisitedCount env w ≤ unvisitedCount env v := by
  apply countP_mono2
  intro x hxw
  rcases hvx : vlookup v x with _ | d
  · rfl
  · have hs := hsub x (by rw [hvx]; rfl)
    rcases hwx : vlookup w x with _ | d2
    · rw [hwx] at hs
      exact absurd hs (by simp)
    · rw [hwx] at hxw
      exact absurd hxw (by simp)

theorem unvisited_strict (env : Env) (v w : Visited) (np : Str)
    (hsub : Subkeys v w) (hv : vlookup v np = none)
    (hw : (vlookup w np).isSome = true) (hmem : np ∈ normPaths env) :
    unvisitedCount env w < unvisitedCount env v := by
  apply countP_lt _ _ _ np _ _ _ hmem
  · intro x hxw
    rcases hvx : vlookup v x with _ | d
    · rfl
    · have hs := hsub x (by rw [hvx]; rfl)
      rcases hwx : vlookup w x with _ | d2
      · rw [hwx] at hs
        exact absurd hs (by simp)
      · rw [hwx] at hxw
        exact absurd hxw (by simp)
  · rw [hv]
    rfl
  · rcases hwx : vlookup w np with _ | d2
    · rw [hwx] at hw
      exact absurd hw (by simp)
    · rfl

theorem strMem_true_iff (x : Str) (l : List Str) : strMem x l = true ↔ x ∈ l := by
  simp [strMem, List.any_eq_true, beq_iff_eq]

theorem readPath_mem (env : Env) (q cq : Str)
    (h : safeReadFile env q = some cq) : posixNormalize q ∈ normPaths env := by
  unfold safeReadFile at h
  rcases hfind : env.files.find? (fun pr => pr.1 == q) with _ | pr0
  · rw [hfind] at h
    simp at h
  · have hmem := List.mem_of_find?_eq_some hfind
    have hbeq := List.find?_some hfind
    have he : pr0.1 = q := by simpa using hbeq
    unfold normPaths
    rw [← he]
    exact List.mem_map_of_mem _ hmem

theorem analyzeFile_zero (env : Env) (ctx : LatestCheckContext) (p c : Str)
    (v : Visited) (hv : vlookup v (posixNormalize p) = none) :
    analyzeFile 0 env ctx p c v = ([], v) := by
  simp only [analyzeFile, hv]

theorem analyzeFile_succ (n : Nat) (env : Env) (ctx : LatestCheckContext)
    (p c : Str) (v : Visited) (hv : vlookup v (posixNormalize p) = none) :
    analyzeFile (n + 1) env ctx p c v =
      (match processLines (fun q cq w => analyzeFile n env ctx q cq w) env
          ⟨posixNormalize p, dirname (posixNormalize p),
           decide (toLowerStr (extname (posixNormalize p)) = chars ".tcf"),
           (shouldCheckLatestReferencedVersions env ctx (posixNormalize p)).1⟩
          (splitLines c) 0
          (shouldCheckLatestReferencedVersions env ctx (posixNormalize p)).2 []
          (vset v (posixNormalize p) []) with
        | .ignoredFile v2 => (([] : List Diagnostic), vset v2 (posixNormalize p) [])
        | .done d stack v2 =>
            (d ++ (if env.ifChecksEnabled ∧ stack ≠ [] then stack.map toBlockErr
                   else []),
             vset v2 (posixNormalize p)
               (d ++ (if env.ifChecksEnabled ∧ stack ≠ [] then stack.map toBlockErr
                      else [])))) := by
  conv_lhs => rw [analyzeFile]
  simp only [hv]

theorem processCandidates_mono (child : ChildFun) (env : Env) (fc : FileCtx)
    (hm : ∀ q c w, Subkeys w (child q c w).2) :
    ∀ (cands : List Candidate) (d : List Diagnostic) (v : Visited),
      Subkeys v (processCandidates child env fc cands d v).2 := by
  intro cands
  induction cands with
  | nil => intro d v; exact Subkeys_refl v
  | cons cand rest ih =>
      intro d v
      simp only [processCandidates]
      by_cases h1 : ¬ isLikelyFile cand.text = true ∨ containsUnresolvedToken cand.text = true
      · rw [if_pos h1]
        exact ih _ v
      · rw [if_neg h1]
        by_cases h2 : ¬ fsExists env (resolvePath fc.docDir cand.text) = true
        · rw [if_pos h2]
          exact ih _ v
        · rw [if_neg h2]
          by_cases h3 : strMem (toLowerStr (extname (resolvePath fc.docDir cand.text)))
              CONTROL_FILE_EXTENSIONS = true
          · rw [if_pos h3]
            rcases hr : safeReadFile env (resolvePath fc.docDir cand.text) with _ | cc
            · exact ih _ v
            · exact Subkeys_trans (Subkeys_vset v fc.np _)
                (Subkeys_trans (hm _ _ _) (ih _ _))
          · rw [if_neg h3]
            exact ih _ v

theorem processLines_mono (child : ChildFun) (env : Env) (fc : FileCtx)
    (hm : ∀ q c w, Subkeys w (child q c w).2) :
    ∀ (lines : List Str) (i : Nat) (d : List Diagnostic)
      (stack : List BlockEntry) (v : Visited),
      Subkeys v (ploutV (processLines child env fc lines i d stack v)) := by
  intro lines
  induction lines with
  | nil => intro i d stack v; exact Subkeys_refl v
  | cons text rest ih =>
      intro i d stack v
      simp only [processLines]
      repeat' split
      all_goals first
        | exact Subkeys_refl _
        | exact ih _ _ _ _
        | exact Subkeys_trans (processCandidates_mono child env fc hm _ _ _)
            (ih _ _ _ _)

theorem analyzeFile_mono (env : Env) (ctx : LatestCheckContext) :
    ∀ (f : Nat) (p c : Str) (v : Visited),
      Subkeys v (analyzeFile f env ctx p c v).2 := by
  intro f
  induction f with
  | zero =>
      intro p c v
      rcases hv : vlookup v (posixNormalize p) with _ | d
      · rw [analyzeFile_zero env ctx p c v hv]
        exact Subkeys_refl v
      · rw [analyzeFile_memo 0 env ctx p c v d hv]
        exact Subkeys_refl v
  | succ n ih =>
      intro p c v
      rcases hv : vlookup v (posixNormalize p) with _ | d
      · rw [analyzeFile_succ n env ctx p c v hv]
        have hpl := processLines_mono (fun q cq w => analyzeFile n env ctx q cq w) env
          ⟨posixNormalize p, dirname (posixNormalize p),
           decide (toLowerStr (extname (posixNormalize p)) = chars ".tcf"),
           (shouldCheckLatestReferencedVersions env ctx (posixNormalize p)).1⟩
          (fun q cq w => ih q cq w)
          (splitLines c) 0
          (shouldCheckLatestReferencedVersions env ctx (posixNormalize p)).2 []
          (vset v (posixNormalize p) [])
        split
        · next v2 heq =>
            rw [heq] at hpl
            exact Subkeys_trans (Subkeys_vset v (posixNormalize p) [])
              (Subkeys_trans hpl (Subkeys_vset v2 (posixNormalize p) []))
        · next d2 stack v2 heq =>
            rw [heq] at hpl
            exact Subkeys_trans (Subkeys_vset v (posixNormalize p) [])
              (Subkeys_trans hpl (Subkeys_vset v2 (posixNormalize p) _))
      · rw [analyzeFile_memo (n + 1) env ctx p c v d hv]
        exact Subkeys_refl v

theorem processCandidates_congr (child₁ child₂ : ChildFun) (env : Env)
    (fc : FileCtx) (v0 : Visited)
    (hm : ∀ q c w, Subkeys w (child₁ q c w).2)
    (hag : ∀ q cq w, Subkeys v0 w → safeReadFile env q = some cq →
      child₁ q cq w = child₂ q cq w) :
    ∀ (cands : List Candidate) (d : List Diagnostic) (v : Visited),
      Subkeys v0 v →
      processCandidates child₁ env fc cands d v =
        processCandidates child₂ env fc cands d v := by
  intro cands
  induction cands with
  | nil => intro d v hv; rfl
  | cons cand rest ih =>
      intro d v hv
      simp only [processCandidates]
      by_cases h1 : ¬ isLikelyFile cand.text = true ∨ containsUnresolvedToken cand.text = true
      · simp only [if_pos h1]
        exact ih _ v hv
      · simp only [if_neg h1]
        by_cases h2 : ¬ fsExists env (resolvePath fc.docDir cand.text) = true
        · simp only [if_pos h2]
          exact ih _ v hv
        · simp only [if_neg h2]
          by_cases h3 : strMem (toLowerStr (extname (resolvePath fc.docDir cand.text)))
              CONTROL_FILE_EXTENSIONS = true
          · simp only [if_pos h3]
            rcases hr : safeReadFile env (resolvePath fc.docDir cand.text) with _ | cc
            · exact ih _ v hv
            · have hv1 : Subkeys v0 (vset v fc.np
                  (if fc.checkLatest = true then
                    d ++ checkReferencedFileLatestVersion env
                      (resolvePath fc.docDir cand.text) cand.range
                  else d)) :=
                Subkeys_trans hv (Subkeys_vset v fc.np _)
              dsimp only
              rw [← hag (resolvePath fc.docDir cand.text) cc _ hv1 hr]
              exact ih _ _ (Subkeys_trans hv1 (hm _ _ _))
          · simp only [if_neg h3]
            exact ih _ v hv

theorem processLines_congr (child₁ child₂ : ChildFun) (env : Env)
    (fc : FileCtx) (v0 : Visited)
    (hm : ∀ q c w, Subkeys w (child₁ q c w).2)
    (hag : ∀ q cq w, Subkeys v0 w → safeReadFile env q = some cq →
      child₁ q cq w = child₂ q cq w) :
    ∀ (lines : List Str) (i : Nat) (d : List Diagnostic)
      (stack : List BlockEntry) (v : Visited),
      Subkeys v0 v →
      processLines child₁ env fc lines i d stack v =
        processLines child₂ env fc lines i d stack v := by
  intro lines
  induction lines with
  | nil => intro i d stack v hv; rfl
  | cons text rest ih =>
      intro i d stack v hv
      simp only [processLines]
      repeat' split
      all_goals first
        | rfl
        | exact ih _ _ _ _ hv
        | (rw [← processCandidates_congr child₁ child₂ env fc v0 hm hag _ _ v hv];
           exact ih _ _ _ _
             (Subkeys_trans hv (processCandidates_mono child₁ env fc hm _ _ _)))

theorem analyzeFile_step (env : Env) (ctx : LatestCheckContext) :
    ∀ (f : Nat) (p c : Str) (v : Visited), fuelNeed env p v ≤ f →
      analyzeFile f env ctx p c v = analyzeFile (f + 1) env ctx p c v := by
  intro f
  induction f with
  | zero =>
      intro p c v hf
      rcases hv : vlookup v (posixNormalize p) with _ | dd
      · exfalso
        simp only [fuelNeed, hv, Option.isSome_none, Bool.false_eq_true,
          if_false] at hf
        split at hf <;> omega
      · rw [analyzeFile_memo 0 env ctx p c v dd hv,
            analyzeFile_memo 1 env ctx p c v dd hv]
  | succ n ih =>
      intro p c v hf
      rcases hv : vlookup v (posixNormalize p) with _ | dd
      · rw [analyzeFile_succ n env ctx p c v hv,
            analyzeFile_succ (n + 1) env ctx p c v hv]
        have hm : ∀ q cq w, Subkeys w ((fun q cq w => analyzeFile n env ctx q cq w) q cq w).2 :=
          fun q cq w => analyzeFile_mono env ctx n q cq w
        have hag : ∀ q cq w, Subkeys (vset v (posixNormalize p) []) w →
            safeReadFile env q = some cq →
            (fun q cq w => analyzeFile n env ctx q cq w) q cq w =
              (fun q cq w => analyzeFile (n + 1) env ctx q cq w) q cq w := by
          intro q cq w hw hread
          dsimp only
          rcases hq : vlookup w (posixNormalize q) with _ | dq
          · apply ih
            have hqmem : posixNormalize q ∈ normPaths env := readPath_mem env q cq hread
            have hqstr : strMem (posixNormalize q) (normPaths env) = true :=
              (strMem_true_iff _ _).mpr hqmem
            have hsubvw : Subkeys v w :=
              Subkeys_trans (Subkeys_vset v (posixNormalize p) []) hw
            have hwp : (vlookup w (posixNormalize p)).isSome = true := by
              apply hw (posixNormalize p)
              rw [vlookup_vset_self]
              rfl
            simp only [fuelNeed, hq, Option.isSome_none, Bool.false_eq_true,
              if_false, hqstr, if_true]
            simp only [fuelNeed, hv, Option.isSome_none, Bool.false_eq_true,
              if_false] at hf
            by_cases hpmem : strMem (posixNormalize p) (normPaths env) = true
            · rw [if_pos hpmem] at hf
              have hstrict := unvisited_strict env v w (posixNormalize p)
                hsubvw hv hwp ((strMem_true_iff _ _).mp hpmem)
              omega
            · rw [if_neg hpmem] at hf
              have hmono := unvisited_mono env v w hsubvw
              omega
          · rw [analyzeFile_memo n env ctx q cq w dq hq,
                analyzeFile_memo (n + 1) env ctx q cq w dq hq]
        have hpl := processLines_congr
          (fun q cq w => analyzeFile n env ctx q cq w)
          (fun q cq w => analyzeFile (n + 1) env ctx q cq w) env
          ⟨posixNormalize p, dirname (posixNormalize p),
           decide (toLowerStr (extname (posixNormalize p)) = chars ".tcf"),
           (shouldCheckLatestReferencedVersions env ctx (posixNormalize p)).1⟩
          (vset v (posixNormalize p) []) hm hag
          (splitLines c) 0
          (shouldCheckLatestReferencedVersions env ctx (posixNormalize p)).2 []
          (vset v (posixNormalize p) []) (Subkeys_refl _)
        rw [hpl]
      · rw [analyzeFile_memo (n + 1) env ctx p c v dd hv,
            analyzeFile_memo (n + 1 + 1) env ctx p c v dd hv]

theorem analyzeFile_ge (env : Env) (ctx : LatestCheckContext) (p c : Str)
    (v : Visited) (f : Nat) (hf : fuelNeed env p v ≤ f) :
    ∀ k, analyzeFile (f + k) env ctx p c v = analyzeFile f env ctx p c v := by
  intro k
  induction k with
  | zero => rfl
  | succ m ih =>
      have hst := analyzeFile_step env ctx (f + m) p c v (by omega)
      calc analyzeFile (f + (m + 1)) env ctx p c v
          = analyzeFile (f + m + 1) env ctx p c v := rfl
        _ = analyzeFile (f + m) env ctx p c v := (hst).symm
        _ = analyzeFile f env ctx p c v := ih

theorem fuelNeed_le (env : Env) (p : Str) (v : Visited) :
    fuelNeed env p v ≤ 2 * env.files.length + 2 := by
  have h1 : unvisitedCount env v ≤ env.files.length := by
    have h2 := List.countP_le_length (fun x => (vlookup v x).isNone)
      (l := normPaths env)
    have h3 : (normPaths env).length = env.files.length := by
      simp [normPaths]
    unfold unvisitedCount
    omega
  unfold fuelNeed
  split
  · omega
  · split <;> omega

/-- C1: the analyzer memoizes and terminates: a normalized path already in
the visited map is returned as-is at any fuel, so each path is analyzed
at most once and a back-edge of a reference cycle resolves to the
existing (possibly still-filling) list; any fuel of at least
`2 * env.files.length + 2` computes the fixed point of the source's
unbounded recursion; and on the two-file cycle `a.tcf ↔ b.tcf` the
traversal terminates with a diagnostics entry for both members. -/
theorem claim_C1 (env : Env) (ctx : LatestCheckContext) (p c : Str)
    (v : Visited) :
    (∀ fuel d, vlookup v (posixNormalize p) = some d →
        analyzeFile fuel env ctx p c v = (d, v)) ∧
    (∀ k, analyzeFile (2 * env.files.length + 2 + k) env ctx p c v =
        analyzeFile (2 * env.files.length + 2) env ctx p c v) ∧
    ((∃ da, vlookup (analyzeRootDocument 6 envCycle ctxEmpty
        (chars "/w/a.tcf") (chars "Read File == b.tcf"))
        (chars "/w/a.tcf") = some da) ∧
     (∃ db, vlookup (analyzeRootDocument 6 envCycle ctxEmpty
        (chars "/w/a.tcf") (chars "Read File == b.tcf"))
        (chars "/w/b.tcf") = some db)) :=
  ⟨fun fuel d h => analyzeFile_memo fuel env ctx p c v d h,
   fun k => analyzeFile_ge env ctx p c v (2 * env.files.length + 2)
     (fuelNeed_le env p v) k,
   ⟨[], by decide⟩, ⟨[], by decide⟩⟩

theorem claim_C1_witness :
    analyzeFile 3 envCycle ctxEmpty (chars "/w/a.tcf") (chars "x")
      [(chars "/w/a.tcf", [])] = ([], [(chars "/w/a.tcf", [])]) :=
  (claim_C1 envCycle ctxEmpty (chars "/w/a.tcf") (chars "x")
      [(chars "/w/a.tcf", [])]).1 3 [] (by decide)

